import Mathlib

/-!
Shallow embedding of `assemblyline/lib/assemble/assembler.py` (trunk) and
verification of the frozen claims about it.

Python floats are modelled as exact rationals (`ℚ`); Python `dict`s keyed by
kmer tuples / integer ids are modelled as association lists; `networkx.DiGraph`
node and edge sets are modelled as `Finset`s.  Fallible Python code (statements
that can raise, e.g. `ZeroDivisionError` or indexing an empty list) is modelled
with `Option`: `none` is a raised exception.
-/

namespace Assembler

/-- `SOURCE = -1` (assembler.py line 33). -/
def SOURCE : Int := -1

/-- `SINK = -2` (assembler.py line 34). -/
def SINK : Int := -2

/-- Two-valued strand indicator (`assemblyline.lib.transcript.NEG_STRAND`);
the assembler only ever tests `strand == NEG_STRAND`. -/
inductive Strand where
  | pos : Strand
  | neg : Strand
deriving DecidableEq

/-- An exon: half-open genomic interval.  Field names follow the source
(`Exon(start, end)`); `end` is a Lean keyword hence the guillemets. -/
structure Exon where
  start : Int
  «end» : Int
deriving DecidableEq, Repr

/-- The splice-graph data that `expand_path_chains` consumes: for each node,
the optional `CHAIN_NODES` attribute (`G.node[n]` line 303-307). -/
def ChainMap := Exon → Option (List Exon)

/-- The `collapse contiguous nodes along path` loop of `expand_path_chains`
(assembler.py lines 309-322).  The source keeps the current run in a list
`chain` but only ever reads `chain[0]` and `chain[-1]`, so the run is modelled
by that pair: flushing emits `Exon(chain[0].start, chain[-1].end)`
(lines 315-316 and 321); `chain.append(v)` updates `chain[-1]` to `v`
(line 319); `chain = []; chain.append(v)` resets both to `v` (lines 318-319).
`newpath` is the output accumulator, the last argument the remaining input
(`path[1:]`). -/
def collapseLoop : Exon → Exon → List Exon → List Exon → List Exon
  | chain0, chainLast, newpath, [] =>
      newpath ++ [Exon.mk chain0.start chainLast.«end»]
  | chain0, chainLast, newpath, v :: rest =>
      if chainLast.«end» ≠ v.start then
        collapseLoop v v (newpath ++ [Exon.mk chain0.start chainLast.«end»]) rest
      else
        collapseLoop chain0 v newpath rest

/-- `expand_path_chains(G, strand, path)` (assembler.py lines 295-322).
Returns `none` when the Python code would raise (`path[0]` on an empty
expanded path). -/
def expand_path_chains (chains : ChainMap) (strand : Strand) (path : List Exon) :
    Option (List Exon) :=
  -- lines 298-299: reverse negative stranded data
  let path := if strand = Strand.neg then path.reverse else path
  -- lines 301-308: replace chain nodes by their children
  let newpath := path.flatMap (fun n => match chains n with
    | some cs => cs
    | none => [n])
  -- lines 309-322: collapse contiguous exons
  match newpath with
  | [] => none
  | p0 :: rest => some (collapseLoop p0 p0 [] rest)

/-- A `ChainMap` with no `CHAIN_NODES` attribute anywhere. -/
def noChains : ChainMap := fun _ => none

/-! ## The kmer graph pipeline -/

/-- A kmer: tuple of consecutive SpliceNode identifiers. -/
abbrev Kmer := List Int

/-- Association-list lookup, modelling Python `dict` access (first match;
the embedding only ever appends fresh keys). -/
def alookup {α β : Type} [DecidableEq α] : List (α × β) → α → Option β
  | [], _ => none
  | (a, b) :: rest, x => if x = a then some b else alookup rest x

/-- The input splice graph; this core only needs vertex identity and leaf
detection, so nodes are bare identifiers. -/
structure SpliceGraph where
  nodes : Finset Int
  edges : Finset (Int × Int)

def spliceInDegree (G : SpliceGraph) (n : Int) : Nat :=
  (G.edges.filter (fun e => e.2 = n)).card

def spliceOutDegree (G : SpliceGraph) (n : Int) : Nat :=
  (G.edges.filter (fun e => e.1 = n)).card

/-- `get_start_end_nodes(G)` (assembler.py lines 36-45): the leaf sources and
leaf sinks of the original splice graph. -/
def get_start_end_nodes (G : SpliceGraph) : Finset Int × Finset Int :=
  (G.nodes.filter (fun n => spliceInDegree G n = 0),
   G.nodes.filter (fun n => spliceOutDegree G n = 0))

/-- The per-node attribute dict (`init_node_attrs`, assembler.py lines 47-49). -/
structure KAttrs where
  score : ℚ
  smooth_fwd : ℚ
  smooth_rev : ℚ
  smooth_tmp : ℚ
deriving DecidableEq, Repr

def init_node_attrs : KAttrs := ⟨0, 0, 0, 0⟩

/-- The kmer graph (`nx.DiGraph` `K` plus its graph attributes
`id_kmer_map`, `source`, `sink`).  `attrs` is a total function; it is only
meaningful on `nodes` (node ids are never reused, so stale entries for
removed nodes are never read). -/
structure KGraph where
  nodes : Finset Int
  edges : Finset (Int × Int)
  attrs : Int → KAttrs
  id_kmer_map : List (Int × Kmer)
  source : Int
  sink : Int

def inDeg (K : KGraph) (n : Int) : Nat :=
  (K.edges.filter (fun e => e.2 = n)).card

def outDeg (K : KGraph) (n : Int) : Nat :=
  (K.edges.filter (fun e => e.1 = n)).card

def successors (K : KGraph) (n : Int) : Finset Int :=
  (K.edges.filter (fun e => e.1 = n)).image Prod.snd

def predecessors (K : KGraph) (n : Int) : Finset Int :=
  (K.edges.filter (fun e => e.2 = n)).image Prod.fst

/-- `K.add_node(n, attr_dict=init_node_attrs())` guarded by `if n not in K`. -/
def addNode (K : KGraph) (n : Int) : KGraph :=
  if n ∈ K.nodes then K
  else { K with nodes := insert n K.nodes,
                attrs := fun m => if m = n then init_node_attrs else K.attrs m }

/-- In-place update of one node's attribute dict. -/
def bump (K : KGraph) (n : Int) (f : KAttrs → KAttrs) : KGraph :=
  { K with attrs := fun m => if m = n then f (K.attrs n) else K.attrs m }

/-- The body of `add_path`'s `for to_id in path[1:]` loop plus the trailing
`kmerattrs[SMOOTH_FWD] += score` (assembler.py lines 60-70): `from_id` is the
previously visited node, which receives the forward-smoothing credit when the
loop ends (it is then the last kmer of the path). -/
def add_path_loop (score : ℚ) : KGraph → Int → List Int → KGraph
  | K, from_id, [] =>
      bump K from_id (fun a => { a with smooth_fwd := a.smooth_fwd + score })
  | K, from_id, to_id :: rest =>
      let K1 := addNode K to_id
      let K2 := bump K1 to_id (fun a => { a with score := a.score + score })
      let K3 := { K2 with edges := insert (from_id, to_id) K2.edges }
      add_path_loop score K3 to_id rest

/-- `add_path(K, path, score)` (assembler.py lines 51-70).  The Python raises
`IndexError` on an empty path; callers guard against that, and the `[]` case
here is unreachable in the modelled pipeline. -/
def add_path (K : KGraph) (path : List Int) (score : ℚ) : KGraph :=
  match path with
  | [] => K
  | from_id :: rest =>
      let K1 := addNode K from_id
      let K2 := bump K1 from_id (fun a => { a with score := a.score + score })
      let K3 := bump K2 from_id (fun a => { a with smooth_rev := a.smooth_rev + score })
      add_path_loop score K3 from_id rest

/-- `K.remove_nodes_from(S)`: drops the nodes and all incident edges. -/
def removeNodes (K : KGraph) (S : Finset Int) : KGraph :=
  { K with nodes := K.nodes \ S,
           edges := K.edges.filter (fun e => e.1 ∉ S ∧ e.2 ∉ S) }

/-- The violator test of `clip_dangling_ends`' inner loop (assembler.py
lines 141-145): non-sentinel with zero in- or out-degree. -/
def isViolator (K : KGraph) (n : Int) : Prop :=
  n ≠ K.source ∧ n ≠ K.sink ∧ (inDeg K n = 0 ∨ outDeg K n = 0)

instance (K : KGraph) (n : Int) : Decidable (isViolator K n) :=
  inferInstanceAs (Decidable (n ≠ K.source ∧ n ≠ K.sink ∧
    (inDeg K n = 0 ∨ outDeg K n = 0)))

/-- One `while len(test_nodes) > 0` iteration of `clip_dangling_ends`
(assembler.py lines 137-157), fuel-indexed.  Each productive iteration
removes at least one node, and an unproductive iteration empties the test
set, so fuel `K.nodes.card + 1` makes this reach the loop's fixed point on
well-formed graphs (proved below). -/
def clipLoop : Nat → KGraph → Finset Int → Finset Int → ℚ → KGraph × Finset Int × ℚ
  | 0, K, _, clipAcc, scoreAcc => (K, clipAcc, scoreAcc)
  | fuel + 1, K, testNodes, clipAcc, scoreAcc =>
      if testNodes = ∅ then (K, clipAcc, scoreAcc)
      else
        let newClip := testNodes.filter (fun n => isViolator K n)
        let newTest := newClip.biUnion
          (fun n => if inDeg K n = 0 then successors K n else predecessors K n)
        let scoreAcc2 := scoreAcc + newClip.sum (fun n => (K.attrs n).score)
        clipLoop fuel (removeNodes K newClip) (newTest \ newClip)
          (clipAcc ∪ newClip) scoreAcc2

/-- `clip_dangling_ends(K)` (assembler.py lines 124-158): iteratively remove
non-sentinel vertices of zero in- or out-degree, re-testing exposed
neighbors, and return the removed set plus their accumulated score. -/
def clip_dangling_ends (K : KGraph) : KGraph × Finset Int × ℚ :=
  clipLoop (K.nodes.card + 1) K K.nodes ∅ 0

/-- Well-formedness of a kmer graph: every edge endpoint is a node (always
true of graphs built by `add_path`; `networkx` raises on degree queries for
absent nodes, so `clip_dangling_ends` presupposes this). -/
def KWF (K : KGraph) : Prop :=
  ∀ e ∈ K.edges, e.1 ∈ K.nodes ∧ e.2 ∈ K.nodes

instance (K : KGraph) : Decidable (KWF K) :=
  inferInstanceAs (Decidable (∀ e ∈ K.edges, e.1 ∈ K.nodes ∧ e.2 ∈ K.nodes))

/-- Loop invariant of `clip_dangling_ends`: every violator still in the
graph is scheduled for testing. -/
def ClipInv (K : KGraph) (T : Finset Int) : Prop :=
  ∀ n ∈ K.nodes, isViolator K n → n ∈ T

/-- Python slice `l[i:i+len]`. -/
def pySlice (l : List Int) (i len : Nat) : List Int := (l.drop i).take len

/-- The inner loop of `hash_kmers` (assembler.py lines 75-76): the slices
`kmer[i:i+ksmall]` for `i in xrange(k - (ksmall-1))`.  `k` is the global
window size, not `len(kmer)`; for the shorter full-length kmers this yields
some truncated slices, which are never looked up at length `ksmall`. -/
def subWindows (kmer : Kmer) (k ksmall : Nat) : List Kmer :=
  (List.range (k - (ksmall - 1))).map (fun i => pySlice kmer i ksmall)

/-- `hash_kmers(id_kmer_map, k, ksmall)` (assembler.py lines 72-77) as a
lookup function: the set of kmer ids whose tuple contains the query as one
of its `subWindows`.  Each id appears at most once (Python stores a set). -/
def hash_kmers (id_kmer_map : List (Int × Kmer)) (k ksmall : Nat) : Kmer → List Int :=
  fun q => (id_kmer_map.filter (fun e => q ∈ subWindows e.2 k ksmall)).map Prod.fst

/-- `find_short_path_kmers(kmer_hash, K, path, score)` (assembler.py
lines 103-122), with the generator materialised as a list.  When the query
misses the hash the generator is empty (`some []`).  When all matching kmers
have zero score, `kmer_score / float(total_score)` raises
`ZeroDivisionError`: modelled as `none`. -/
def find_short_path_kmers (kmer_hash : Kmer → List Int) (K : KGraph)
    (path : Kmer) (score : ℚ) : Option (List (List Int × ℚ)) :=
  let ids := kmer_hash path
  if ids = [] then some []
  else
    let matching := ids.map (fun i => (i, (K.attrs i).score))
    let total : ℚ := (matching.map Prod.snd).sum
    if total = 0 then none
    else some (matching.map (fun m => ([m.1], score * (m.2 / total))))

/-- The mutable state of `create_kmer_graph`'s first loop (assembler.py
lines 195-232): the two kmer/id maps, the id counter, the per-length buckets
of deferred short paths (`short_partial_path_dict`, keyed by length in
first-appearance order), and the accumulated kmer paths. -/
structure BuildState where
  kmer_id_map : List (Kmer × Int)
  id_kmer_map : List (Int × Kmer)
  current_id : Int
  shorts : List (Nat × List (List Int × ℚ))
  kmer_paths : List (List Int × ℚ)

def initBuildState : BuildState := ⟨[], [], 0, [], []⟩

/-- The `if kmer not in kmer_id_map` body (assembler.py lines 221-227):
either return the existing id or allocate `current_id` and record the kmer
in both maps. -/
def addKmer (st : BuildState) (kmer : Kmer) : BuildState × Int :=
  match alookup st.kmer_id_map kmer with
  | some i => (st, i)
  | none =>
      ({ st with
          kmer_id_map := st.kmer_id_map ++ [(kmer, st.current_id)],
          id_kmer_map := st.id_kmer_map ++ [(st.current_id, kmer)],
          current_id := st.current_id + 1 },
       st.current_id)

/-- The `for kmer in kmers` loop (assembler.py lines 220-228), returning the
kmer ids in order. -/
def addKmers (st : BuildState) : List Kmer → BuildState × List Int
  | [] => (st, [])
  | t :: rest =>
      let p1 := addKmer st t
      let p2 := addKmers p1.1 rest
      (p2.1, p1.2 :: p2.2)

/-- `short_partial_path_dict[len(path)].append((path, score))`. -/
def bucketAdd (shorts : List (Nat × List (List Int × ℚ))) (len : Nat)
    (entry : List Int × ℚ) : List (Nat × List (List Int × ℚ)) :=
  if (shorts.map Prod.fst).contains len then
    shorts.map (fun g => if g.1 = len then (g.1, g.2 ++ [entry]) else g)
  else shorts ++ [(len, [entry])]

/-- `get_kmers(path, k)` (assembler.py lines 188-190): the slices
`path[i:i+k]` for `i in xrange(0, len(path) - (k-1))`. -/
def get_kmers (path : List Int) (k : Nat) : List Kmer :=
  (List.range (path.length - (k - 1))).map (fun i => pySlice path i k)

/-- One iteration of `for path, score in partial_paths` (assembler.py
lines 200-232): defer short fragmented paths to a bucket, otherwise convert
the path to a sequence of kmer ids, bracketed by `SOURCE`/`SINK` when the
path begins at a leaf source / ends at a leaf sink. -/
def processPath (start_nodes end_nodes : Finset Int) (k : Nat)
    (st : BuildState) (pp : List Int × ℚ) : BuildState :=
  let path := pp.1
  let score := pp.2
  let is_start := path.headD 0 ∈ start_nodes
  let is_end := path.getLastD 0 ∈ end_nodes
  if path.length < k ∧ ¬(is_start ∧ is_end) then
    { st with shorts := bucketAdd st.shorts path.length (path, score) }
  else
    let kmers := if path.length < k then [path] else get_kmers path k
    let p := addKmers st kmers
    let kmerpath := (if is_start then [SOURCE] else []) ++ p.2
      ++ (if is_end then [SINK] else [])
    { p.1 with kmer_paths := p.1.kmer_paths ++ [(kmerpath, score)] }

/-- One `for path, score in short_partial_paths` group iteration
(assembler.py lines 246-250): resolve each deferred short path, recording it
as lost when nothing matches.  `none` propagates a `ZeroDivisionError`. -/
def resolveGroup (kmer_hash : Kmer → List Int) (K : KGraph) :
    List (List Int × ℚ) → Option (List (List Int × ℚ) × List (List Int × ℚ))
  | [] => some ([], [])
  | (path, score) :: rest => do
      let matching ← find_short_path_kmers kmer_hash K path score
      let p ← resolveGroup kmer_hash K rest
      some (matching ++ p.1,
        if matching.isEmpty then (path, score) :: p.2 else p.2)

/-- The `for ksmall, short_partial_paths in short_partial_path_dict`
loop (assembler.py lines 244-250): one substring-hash per short length. -/
def resolveShorts (k : Nat) (idk : List (Int × Kmer)) (K : KGraph) :
    List (Nat × List (List Int × ℚ)) →
    Option (List (List Int × ℚ) × List (List Int × ℚ))
  | [] => some ([], [])
  | (ksmall, group) :: gs => do
      let p ← resolveGroup (hash_kmers idk k ksmall) K group
      let q ← resolveShorts k idk K gs
      some (p.1 ++ q.1, p.2 ++ q.2)

/-- Invariant of the phase-1 build state: `kmer_id_map` and `id_kmer_map`
are mutually inverse association lists with unique keys, and every recorded
id is a non-negative integer below `current_id`. -/
structure StInv (st : BuildState) : Prop where
  mem_iff : ∀ i t, (i, t) ∈ st.id_kmer_map ↔ (t, i) ∈ st.kmer_id_map
  ids_bound : ∀ e ∈ st.id_kmer_map, 0 ≤ e.1 ∧ e.1 < st.current_id
  cid_nonneg : 0 ≤ st.current_id
  ids_nodup : (st.id_kmer_map.map Prod.fst).Nodup
  keys_nodup : (st.kmer_id_map.map Prod.fst).Nodup

/-- All tuples recorded in an id-to-kmer table have length between 1 and
`k`: true for tables built at window size `k ≥ 1` from non-empty paths. -/
def IdkLen (idk : List (Int × Kmer)) (k : Nat) : Prop :=
  ∀ e ∈ idk, 1 ≤ e.2.length ∧ e.2.length ≤ k

/-- The value returned by `create_kmer_graph` (assembler.py line 259). -/
structure CreateResult where
  K : KGraph
  lost_paths : List (List Int × ℚ)
  clip_nodes : Finset Int
  clip_score : ℚ

/-- `create_kmer_graph(G, partial_paths, k)` (assembler.py lines 182-259).
An empty partial path makes `path[0]` raise `IndexError` (modelled by the
up-front guard); a `ZeroDivisionError` during short-path resolution also
yields `none`. -/
def create_kmer_graph (G : SpliceGraph) (partial_paths : List (List Int × ℚ))
    (k : Nat) : Option CreateResult :=
  if partial_paths.any (fun pp => pp.1.isEmpty) then none
  else
    let se := get_start_end_nodes G
    let st := partial_paths.foldl (processPath se.1 se.2 k) initBuildState
    let K0 : KGraph :=
      { nodes := ∅, edges := ∅, attrs := fun _ => init_node_attrs,
        id_kmer_map := st.id_kmer_map, source := SOURCE, sink := SINK }
    let K1 := st.kmer_paths.foldl (fun K p => add_path K p.1 p.2) K0
    match resolveShorts k st.id_kmer_map K1 st.shorts with
    | none => none
    | some (newPaths, lost_paths) =>
        let K2 := newPaths.foldl (fun K p => add_path K p.1 p.2) K1
        let c := clip_dangling_ends K2
        some ⟨c.1, lost_paths, c.2.1, c.2.2⟩

/-- `sum(len(path)*score for path, score in ...)` (assembler.py
lines 266 and 272). -/
def pathsScore (pps : List (List Int × ℚ)) : ℚ :=
  (pps.map (fun p => (p.1.length : ℚ) * p.2)).sum

/-- The `for k in xrange(kmin, kmax+1)` loop of `optimize_k` (assembler.py
lines 268-291) over an explicit list of candidates, threading `last`.  The
outer `none` models a raised exception: `kept_score / total_score` with
`total_score == 0`, or the `logging.debug` line's `.../len(K)` with an empty
post-clip graph (the format string is evaluated eagerly); the inner option is
the Python value of `last` (`None` until a k is accepted). -/
def optLoop (G : SpliceGraph) (pps : List (List Int × ℚ)) (total thr : ℚ) :
    List Nat → Option (KGraph × Nat) → Option (Option (KGraph × Nat))
  | [], last => some last
  | k :: ks, last =>
      match create_kmer_graph G pps k with
      | none => none
      | some r =>
          if total = 0 then none
          else if r.K.nodes.card = 0 then none
          else
            let lost_path_score := pathsScore r.lost_paths
            let sens := (total - (lost_path_score + r.clip_score)) / total
            if sens < thr then some last
            else optLoop G pps total thr ks (some (r.K, k))

/-- `optimize_k(G, partial_paths, kmin, kmax, sensitivity_threshold)`
(assembler.py lines 261-292). -/
def optimize_k (G : SpliceGraph) (pps : List (List Int × ℚ))
    (kmin kmax : Nat) (thr : ℚ) : Option (Option (KGraph × Nat)) :=
  optLoop G pps (pathsScore pps) thr (List.range' kmin (kmax + 1 - kmin)) none

/-- The path reconstruction of `assemble_transcript_graph` (assembler.py
lines 363-365): the full tuple of `kmer_path[1]` followed by the last tuple
element of each id in `kmer_path[2:-1]`.  `id_kmer_map` access is total here
(`getD`); every id on a returned path is a graph vertex with a tuple. -/
def reconstruct_kmer_path (idk : List (Int × Kmer)) (kmer_path : List Int) :
    List Int :=
  match kmer_path with
  | _ :: first :: rest =>
      ((alookup idk first).getD [])
        ++ rest.dropLast.map (fun n => ((alookup idk n).getD []).getLastD 0)
  | _ => []

/-- The tuple recorded for a kmer id (`id_kmer_map[n]`), totalised. -/
def tupOf (idk : List (Int × Kmer)) (n : Int) : Kmer :=
  (alookup idk n).getD []

/-- Two kmer ids whose recorded tuples are full `k`-windows overlapping in
all but one position — the shape of every non-sentinel edge the builder
creates (consecutive sliding windows of one path). -/
def goodStep (idk : List (Int × Kmer)) (k : Nat) (u v : Int) : Prop :=
  ∃ tu tv, alookup idk u = some tu ∧ alookup idk v = some tv ∧
    tu.length = k ∧ tv.length = k ∧ tu.drop 1 = tv.dropLast

/-- A vertex of the kmer graph: a sentinel, or an id whose recorded tuple is
non-empty and no longer than `k`. -/
def goodNode (idk : List (Int × Kmer)) (k : Nat) (n : Int) : Prop :=
  n = SOURCE ∨ n = SINK ∨
    ∃ t, alookup idk n = some t ∧ 1 ≤ t.length ∧ t.length ≤ k

/-- Edge shape: one endpoint is a sentinel, or the two windows overlap. -/
def sentinelOr (idk : List (Int × Kmer)) (k : Nat) (u v : Int) : Prop :=
  u = SOURCE ∨ u = SINK ∨ v = SOURCE ∨ v = SINK ∨ goodStep idk k u v

/-- A well-shaped kmer path: every element a good node, every adjacent pair
sentinel-adjacent or overlapping. -/
def GoodKp (idk : List (Int × Kmer)) (k : Nat) (kp : List Int) : Prop :=
  (∀ n ∈ kp, goodNode idk k n) ∧ kp.Chain' (sentinelOr idk k)

/-- A well-shaped kmer graph relative to a side table. -/
def GoodK (idk : List (Int × Kmer)) (k : Nat) (K : KGraph) : Prop :=
  (∀ n ∈ K.nodes, goodNode idk k n) ∧
  (∀ e ∈ K.edges, sentinelOr idk k e.1 e.2)

/-- One side table extends another: lookups that succeed keep their value. -/
def lext (idk idk2 : List (Int × Kmer)) : Prop :=
  ∀ i u, alookup idk i = some u → alookup idk2 i = some u

/-- Candidate `k` is accepted by `optimize_k`'s iteration: the kmer graph
builds without an exception, neither logged division is by zero, and the
score sensitivity is not below the threshold (assembler.py lines 268-291). -/
def acceptsAt (G : SpliceGraph) (pps : List (List Int × ℚ)) (thr : ℚ)
    (k : Nat) : Bool :=
  match create_kmer_graph G pps k with
  | none => false
  | some r =>
      let total := pathsScore pps
      decide (total ≠ 0) && decide (r.K.nodes.card ≠ 0) &&
        decide (¬((total - (pathsScore r.lost_paths + r.clip_score)) / total < thr))

/-- Candidate `k` is rejected by `optimize_k`'s iteration: the iteration runs
without an exception but the score sensitivity falls below the threshold,
triggering the `break` (assembler.py lines 289-290). -/
def rejectsAt (G : SpliceGraph) (pps : List (List Int × ℚ)) (thr : ℚ)
    (k : Nat) : Bool :=
  match create_kmer_graph G pps k with
  | none => false
  | some r =>
      let total := pathsScore pps
      decide (total ≠ 0) && decide (r.K.nodes.card ≠ 0) &&
        decide ((total - (pathsScore r.lost_paths + r.clip_score)) / total < thr)

/-! ## Concrete inputs used in witnesses and counterexamples -/

/-- Splice graph `1 → 2 → 3`, `4 → 5 → 6`: two linear components. -/
def Gtwo : SpliceGraph := ⟨{1, 2, 3, 4, 5, 6}, {(1, 2), (2, 3), (4, 5), (5, 6)}⟩

/-- One full-length path and one interior single-node fragment `[5]` whose
kmer dangles at every `k`, so most of the score mass is clipped. -/
def ppLossy : List (List Int × ℚ) := [([1, 2, 3], 1), ([5], 10)]

/-- Splice graph `1 → 2 → {3, 4}`: a fork. -/
def Gfork : SpliceGraph := ⟨{1, 2, 3, 4}, {(1, 2), (2, 3), (2, 4)}⟩

/-- Two full-length paths sharing the window `[1, 2]` at `k = 2`. -/
def ppFork : List (List Int × ℚ) := [([1, 2, 3], 5), ([1, 2, 4], 7)]

/-- Linear splice graph `1 → 2 → 3`. -/
def Gline : SpliceGraph := ⟨{1, 2, 3}, {(1, 2), (2, 3)}⟩

/-- A zero-score full-length path plus a deferred short path `[2]` whose
matching kmers all carry zero score. -/
def ppZeroDen : List (List Int × ℚ) := [([1, 2, 3], 0), ([2], 5)]

/-- Splice graph `1 → 2 → 3` and `2 → 4` (4 is a leaf sink). -/
def GforkSink : SpliceGraph := ⟨{1, 2, 3, 4}, {(1, 2), (2, 3), (2, 4)}⟩

/-- Paths that lose nothing at `k = 1` but whose second path's only kmer
`(2,4)` dangles (zero in-degree) at `k = 2` and is clipped. -/
def ppStop : List (List Int × ℚ) := [([1, 2, 3], 10), ([2, 4], 1)]

/-- The side table of the kmer graph built from the fork scenario at
`k = 2` (empty if construction failed — it does not). -/
def idkFork : List (Int × Kmer) :=
  match create_kmer_graph Gfork ppFork 2 with
  | some r => r.K.id_kmer_map
  | none => []

/-- The edge set of the kmer graph built from the fork scenario at `k = 2`
(empty if construction failed — it does not). -/
def edgesFork : Finset (Int × Int) :=
  match create_kmer_graph Gfork ppFork 2 with
  | some r => r.K.edges
  | none => ∅

/-- Node attributes for the concrete clip example. -/
def clipAttrs : Int → KAttrs := fun n =>
  if n = 7 then ⟨3, 0, 0, 0⟩ else if n = 8 then ⟨4, 0, 0, 0⟩ else ⟨1, 0, 0, 0⟩

/-- A kmer graph with a dangling chain `7 → 8 → 6` hanging off the spine
`SOURCE → 5 → 6 → SINK`: clipping 7 exposes 8, which the fixpoint must also
remove. -/
def Kclip : KGraph :=
  { nodes := {-1, -2, 5, 6, 7, 8},
    edges := {(-1, 5), (5, 6), (6, -2), (7, 8), (8, 6)},
    attrs := clipAttrs, id_kmer_map := [], source := -1, sink := -2 }

/-! ## Theorems -/

/-- If no adjacent pair of the remaining input touches the end of the current
chain run, every element is flushed as itself. -/
theorem collapseLoop_of_no_touch (e : Exon) (rest acc : List Exon)
    (h : List.Chain' (fun a b => a.«end» ≠ b.start) (e :: rest)) :
    collapseLoop e e acc rest = acc ++ e :: rest := by
  induction rest generalizing e acc with
  | nil => simp [collapseLoop]
  | cons v rest ih =>
      have hne : e.«end» ≠ v.start := (List.chain'_cons.mp h).1
      have hrest : List.Chain' (fun a b => a.«end» ≠ b.start) (v :: rest) :=
        (List.chain'_cons.mp h).2
      simp only [collapseLoop, if_pos hne]
      rw [ih v _ hrest]
      simp

/-- Expanding a path none of whose nodes has a chain attribute leaves the
node sequence unchanged before collapsing. -/
theorem flatMap_noChain (chains : ChainMap) (path : List Exon)
    (h : ∀ e ∈ path, chains e = none) :
    (path.flatMap (fun n => match chains n with
      | some cs => cs
      | none => [n])) = path := by
  induction path with
  | nil => rfl
  | cons e rest ih =>
      have he : chains e = none := h e (List.mem_cons_self e rest)
      simp only [List.flatMap_cons, he]
      rw [ih (fun x hx => h x (List.mem_cons_of_mem e hx))]
      rfl

/-- Claim C10: on the positive strand, a non-empty path of nodes carrying no
chain attribute, strictly increasing in coordinate and with no exon's end
equal to the next exon's start, is returned unchanged by
`expand_path_chains`. -/
theorem C10_expand_identity (chains : ChainMap) (path : List Exon)
    (hne : path ≠ [])
    (hnochain : ∀ e ∈ path, chains e = none)
    (hinc : List.Chain' (fun a b => a.start < b.start) path)
    (hgap : List.Chain' (fun a b => a.«end» ≠ b.start) path) :
    expand_path_chains chains Strand.pos path = some path := by
  unfold expand_path_chains
  simp only [reduceCtorEq, if_neg, ite_false]
  rw [flatMap_noChain chains path hnochain]
  match path, hne, hgap with
  | p0 :: rest, _, hgap =>
      simp only []
      rw [collapseLoop_of_no_touch p0 rest [] hgap]
      rfl

/-- Witness for C10 at a concrete input. -/
theorem C10_expand_identity_witness :
    expand_path_chains noChains Strand.pos [⟨0, 10⟩, ⟨20, 30⟩]
      = some [⟨0, 10⟩, ⟨20, 30⟩] :=
  C10_expand_identity noChains [⟨0, 10⟩, ⟨20, 30⟩] (by decide)
    (fun _ _ => rfl)
    (List.chain'_pair.mpr (by decide))
    (List.chain'_pair.mpr (by decide))

/-- Claim C3 fails on the code: the negative-strand path of exons
`[(100,120),(120,140),(140,160)]` is reversed into decreasing coordinate
order, where no exon's end can equal the next exon's start, so nothing is
merged: the result is three exons, not the single exon `(100,160)` the claim
asserts. -/
theorem C3_counterexample :
    expand_path_chains noChains Strand.neg
        [⟨100, 120⟩, ⟨120, 140⟩, ⟨140, 160⟩]
      = some [⟨140, 160⟩, ⟨120, 140⟩, ⟨100, 120⟩] ∧
    some [Exon.mk 140 160, Exon.mk 120 140, Exon.mk 100 120]
      ≠ some [Exon.mk 100 160] := by
  constructor
  · rfl
  · decide

/-- Claim C3 as amended: `expand_path_chains` reverses a negative-strand path
before merging (generally: the negative-strand result equals the
positive-strand result on the reversed path), and the negative-strand path
`[(140,160),(120,140),(100,120)]` — decreasing coordinate order, as the
upstream reconstruction produces for negative strand — is reversed to
`[(100,120),(120,140),(140,160)]` and then collapsed into the single exon
`(100,160)`, adjacent exons with `end = next.start` being merged. -/
theorem C3_amended :
    (∀ (chains : ChainMap) (p : List Exon),
        expand_path_chains chains Strand.neg p
          = expand_path_chains chains Strand.pos p.reverse) ∧
    expand_path_chains noChains Strand.neg
        [⟨140, 160⟩, ⟨120, 140⟩, ⟨100, 120⟩]
      = some [⟨100, 160⟩] := by
  constructor
  · intro chains p
    rfl
  · rfl

/-- Claim C1 is what the spec requires, but the code violates it: with the
splice graph `Gtwo` and paths `ppLossy`, the sensitivity at `kmin = 1` is
`3/13`, below the threshold `9/10`, the loop `break`s with `last = None`
still unset, and `optimize_k` returns a bare Python `None` (the inner
`none`) — no explicit error and no documented fallback — which
`assemble_transcript_graph` then unpacks as `K, k = optimize_k(...)`,
raising `TypeError`. -/
theorem C1_optimize_k_silent_none :
    optimize_k Gtwo ppLossy 1 2 (9 / 10) = some none := by
  with_unfolding_all rfl

/-- Claim C7 is what the spec requires, but the code violates it: with
`Gline` and `ppZeroDen`, the short path `[2]` matches the two kmers
`(1,2)` and `(2,3)`, both of score `0`, so `total_score == 0` and
`kmer_score / float(total_score)` in `find_short_path_kmers` raises
`ZeroDivisionError` (modelled as `none`): there is no uniform-split or other
explicit zero-denominator policy. -/
theorem C7_zero_denominator_crash :
    create_kmer_graph Gline ppZeroDen 2 = none := by
  with_unfolding_all rfl

/-- Claim C6 fails on the code as stated: `optimize_k` with
`kmin = kmax = 1` does not return `k = 1` when the sensitivity at that `k`
is below the threshold — it `break`s before accepting and returns `None`. -/
theorem C6_counterexample :
    (optimize_k Gtwo ppLossy 1 1 (9 / 10)).map (fun o => o.map Prod.snd)
        = some none ∧
    some (none : Option Nat) ≠ some (some 1) := by
  constructor
  · with_unfolding_all rfl
  · decide

/-- Claim C6 as amended: invoking `optimize_k` with `kmin == kmax` returns
exactly that `k` (with the graph built at it) provided the single iteration
accepts that `k` — i.e. the sensitivity at `k` reaches the threshold and no
division in the iteration is by zero.  (As invoked by
`assemble_transcript_graph`, `kmin == kmax` only happens with threshold `0`,
where any crash-free iteration accepts.) -/
theorem C6_amended (G : SpliceGraph) (pps : List (List Int × ℚ)) (thr : ℚ)
    (k : Nat) (h : acceptsAt G pps thr k = true) :
    optimize_k G pps k k thr
      = (create_kmer_graph G pps k).map (fun r => some (r.K, k)) := by
  unfold optimize_k
  have hone : k + 1 - k = 1 := by omega
  rw [hone]
  unfold acceptsAt at h
  cases hc : create_kmer_graph G pps k with
  | none => rw [hc] at h; simp at h
  | some r =>
      rw [hc] at h
      simp only [Bool.and_eq_true, decide_eq_true_eq] at h
      obtain ⟨⟨h1, h2⟩, h3⟩ := h
      show optLoop G pps (pathsScore pps) thr [k] none = _
      simp only [optLoop, hc, if_neg h1, if_neg h2]
      rw [if_neg h3]
      rfl

/-- Witness for the amended C6 at a concrete accepted input. -/
theorem C6_amended_witness :
    acceptsAt Gfork ppFork (1 / 2) 2 = true ∧
    optimize_k Gfork ppFork 2 2 (1 / 2)
      = (create_kmer_graph Gfork ppFork 2).map (fun r => some (r.K, 2)) :=
  ⟨by with_unfolding_all decide,
   C6_amended Gfork ppFork (1 / 2) 2 (by with_unfolding_all decide)⟩

/-! ### Dangling-end clipping (claim C2) -/

theorem mem_successors {K : KGraph} {p n : Int} (h : (p, n) ∈ K.edges) :
    n ∈ successors K p :=
  Finset.mem_image.mpr ⟨(p, n), Finset.mem_filter.mpr ⟨h, rfl⟩, rfl⟩

theorem mem_predecessors {K : KGraph} {p n : Int} (h : (p, n) ∈ K.edges) :
    p ∈ predecessors K n :=
  Finset.mem_image.mpr ⟨(p, n), Finset.mem_filter.mpr ⟨h, rfl⟩, rfl⟩

theorem exists_edge_into {K : KGraph} {n : Int} (h : inDeg K n ≠ 0) :
    ∃ p, (p, n) ∈ K.edges := by
  obtain ⟨⟨p, m⟩, he⟩ := Finset.card_ne_zero.mp h
  obtain ⟨he1, he2⟩ := Finset.mem_filter.mp he
  simp only at he2
  exact ⟨p, he2 ▸ he1⟩

theorem exists_edge_out {K : KGraph} {n : Int} (h : outDeg K n ≠ 0) :
    ∃ q, (n, q) ∈ K.edges := by
  obtain ⟨⟨m, q⟩, he⟩ := Finset.card_ne_zero.mp h
  obtain ⟨he1, he2⟩ := Finset.mem_filter.mp he
  simp only at he2
  exact ⟨q, he2 ▸ he1⟩

theorem inDeg_ne_zero_of_edge {K : KGraph} {p n : Int} (h : (p, n) ∈ K.edges) :
    inDeg K n ≠ 0 :=
  Finset.card_ne_zero.mpr ⟨(p, n), Finset.mem_filter.mpr ⟨h, rfl⟩⟩

theorem outDeg_ne_zero_of_edge {K : KGraph} {p n : Int} (h : (p, n) ∈ K.edges) :
    outDeg K p ≠ 0 :=
  Finset.card_ne_zero.mpr ⟨(p, n), Finset.mem_filter.mpr ⟨h, rfl⟩⟩

theorem mem_edges_removeNodes {K : KGraph} {S : Finset Int} {e : Int × Int} :
    e ∈ (removeNodes K S).edges ↔ e ∈ K.edges ∧ e.1 ∉ S ∧ e.2 ∉ S := by
  unfold removeNodes
  exact Finset.mem_filter

theorem removeNodes_empty (K : KGraph) : removeNodes K ∅ = K := by
  cases K with
  | mk nodes edges attrs idk src snk =>
      unfold removeNodes
      simp

theorem successors_subset_nodes {K : KGraph} (hWF : KWF K) (p : Int) :
    successors K p ⊆ K.nodes := by
  intro n hn
  obtain ⟨e, he, hee⟩ := Finset.mem_image.mp hn
  obtain ⟨he1, _⟩ := Finset.mem_filter.mp he
  exact hee ▸ (hWF e he1).2

theorem predecessors_subset_nodes {K : KGraph} (hWF : KWF K) (p : Int) :
    predecessors K p ⊆ K.nodes := by
  intro n hn
  obtain ⟨e, he, hee⟩ := Finset.mem_image.mp hn
  obtain ⟨he1, _⟩ := Finset.mem_filter.mp he
  exact hee ▸ (hWF e he1).1

/-- One clip iteration preserves the loop invariant: a vertex that becomes a
violator after this round's removal lost an incident edge to a removed
neighbor, and that neighbor scheduled it for re-testing. -/
theorem clipInv_step (K : KGraph) (T : Finset Int) (hInv : ClipInv K T) :
    ClipInv (removeNodes K (T.filter (fun n => isViolator K n)))
      ((T.filter (fun n => isViolator K n)).biUnion
          (fun n => if inDeg K n = 0 then successors K n else predecessors K n)
        \ T.filter (fun n => isViolator K n)) := by
  intro n hn hv
  have hn' : n ∈ K.nodes ∧ n ∉ T.filter (fun n => isViolator K n) :=
    Finset.mem_sdiff.mp hn
  obtain ⟨hsrc, hsnk, hdeg⟩ := hv
  by_cases hvK : isViolator K n
  · exact absurd (Finset.mem_filter.mpr ⟨hInv n hn'.1 hvK, hvK⟩) hn'.2
  · have hnd : inDeg K n ≠ 0 ∧ outDeg K n ≠ 0 := by
      unfold isViolator at hvK
      push_neg at hvK
      exact hvK hsrc hsnk
    rcases hdeg with h0 | h0
    · obtain ⟨p, hpn⟩ := exists_edge_into hnd.1
      have hpnot : (p, n) ∉ (removeNodes K (T.filter (fun n => isViolator K n))).edges := by
        intro hmem
        exact inDeg_ne_zero_of_edge hmem h0
      by_cases hp : p ∈ T.filter (fun n => isViolator K n)
      · have hvp : isViolator K p := (Finset.mem_filter.mp hp).2
        have houtp : outDeg K p ≠ 0 := outDeg_ne_zero_of_edge hpn
        have hindp : inDeg K p = 0 := by
          rcases hvp.2.2 with h | h
          · exact h
          · exact absurd h houtp
        refine Finset.mem_sdiff.mpr ⟨Finset.mem_biUnion.mpr ⟨p, hp, ?_⟩, hn'.2⟩
        rw [if_pos hindp]
        exact mem_successors hpn
      · exact absurd (mem_edges_removeNodes.mpr ⟨hpn, hp, hn'.2⟩) hpnot
    · obtain ⟨q, hnq⟩ := exists_edge_out hnd.2
      have hqnot : (n, q) ∉ (removeNodes K (T.filter (fun n => isViolator K n))).edges := by
        intro hmem
        exact outDeg_ne_zero_of_edge hmem h0
      by_cases hq : q ∈ T.filter (fun n => isViolator K n)
      · have hinq : inDeg K q ≠ 0 := inDeg_ne_zero_of_edge hnq
        refine Finset.mem_sdiff.mpr ⟨Finset.mem_biUnion.mpr ⟨q, hq, ?_⟩, hn'.2⟩
        rw [if_neg hinq]
        exact mem_predecessors hnq
      · exact absurd (mem_edges_removeNodes.mpr ⟨hnq, hn'.2, hq⟩) hqnot

/-- With enough fuel (more than the node count), the clip loop reaches the
`while` loop's fixed point: no violator remains, and the graph stays
well-formed with the same sentinels. -/
theorem clipLoop_sound (fuel : Nat) :
    ∀ (K : KGraph) (T a : Finset Int) (s : ℚ),
    KWF K → T ⊆ K.nodes → ClipInv K T → K.nodes.card < fuel →
    (∀ n ∈ (clipLoop fuel K T a s).1.nodes, ¬ isViolator (clipLoop fuel K T a s).1 n) ∧
    KWF (clipLoop fuel K T a s).1 ∧
    (clipLoop fuel K T a s).1.source = K.source ∧
    (clipLoop fuel K T a s).1.sink = K.sink := by
  induction fuel with
  | zero =>
      intro K T a s _ _ _ hf
      exact absurd hf (Nat.not_lt_zero _)
  | succ fuel ih =>
      intro K T a s hWF hT hInv hf
      by_cases hTe : T = ∅
      · simp only [clipLoop, if_pos hTe]
        refine ⟨?_, hWF, by trivial, by trivial⟩
        intro n hn hv
        have := hInv n hn hv
        rw [hTe] at this
        exact absurd this (Finset.not_mem_empty n)
      · simp only [clipLoop, if_neg hTe]
        by_cases hSe : T.filter (fun n => isViolator K n) = ∅
        · have hnov : ∀ n ∈ K.nodes, ¬ isViolator K n := by
            intro n hn hv
            have hmem := Finset.mem_filter.mpr ⟨hInv n hn hv, hv⟩
            rw [hSe] at hmem
            exact absurd hmem (Finset.not_mem_empty n)
          rw [hSe]
          simp only [Finset.biUnion_empty, Finset.empty_sdiff, removeNodes_empty,
            Finset.union_empty, Finset.sum_empty, add_zero]
          cases fuel with
          | zero =>
              have hcard : K.nodes.card = 0 := by omega
              have : T ⊆ (∅ : Finset Int) := by
                rw [← Finset.card_eq_zero.mp hcard]
                exact hT
              exact absurd (Finset.subset_empty.mp this) hTe
          | succ fuel2 =>
              simp only [clipLoop, if_pos rfl]
              exact ⟨hnov, hWF, rfl, rfl⟩
        · have hSsub : T.filter (fun n => isViolator K n) ⊆ K.nodes :=
            fun n hn => hT ((Finset.mem_filter.mp hn).1)
          have hWF' : KWF (removeNodes K (T.filter (fun n => isViolator K n))) := by
            intro e he
            obtain ⟨he1, he2, he3⟩ := mem_edges_removeNodes.mp he
            obtain ⟨hn1, hn2⟩ := hWF e he1
            exact ⟨Finset.mem_sdiff.mpr ⟨hn1, he2⟩, Finset.mem_sdiff.mpr ⟨hn2, he3⟩⟩
          have hT' : ((T.filter (fun n => isViolator K n)).biUnion
                (fun n => if inDeg K n = 0 then successors K n else predecessors K n)
                \ T.filter (fun n => isViolator K n))
              ⊆ (removeNodes K (T.filter (fun n => isViolator K n))).nodes := by
            intro n hn
            obtain ⟨hn1, hn2⟩ := Finset.mem_sdiff.mp hn
            obtain ⟨p, _, hp2⟩ := Finset.mem_biUnion.mp hn1
            have hnK : n ∈ K.nodes := by
              by_cases hd : inDeg K p = 0
              · rw [if_pos hd] at hp2
                exact successors_subset_nodes hWF p hp2
              · rw [if_neg hd] at hp2
                exact predecessors_subset_nodes hWF p hp2
            exact Finset.mem_sdiff.mpr ⟨hnK, hn2⟩
          have hf' : (removeNodes K (T.filter (fun n => isViolator K n))).nodes.card < fuel := by
            have h1 : (K.nodes \ T.filter (fun n => isViolator K n)).card
                = K.nodes.card - (T.filter (fun n => isViolator K n)).card :=
              Finset.card_sdiff hSsub
            have h2 : 0 < (T.filter (fun n => isViolator K n)).card :=
              Finset.card_pos.mpr (Finset.nonempty_iff_ne_empty.mpr hSe)
            have h3 : (T.filter (fun n => isViolator K n)).card ≤ K.nodes.card :=
              Finset.card_le_card hSsub
            show (K.nodes \ T.filter (fun n => isViolator K n)).card < fuel
            omega
          have := ih (removeNodes K (T.filter (fun n => isViolator K n)))
            ((T.filter (fun n => isViolator K n)).biUnion
                (fun n => if inDeg K n = 0 then successors K n else predecessors K n)
              \ T.filter (fun n => isViolator K n))
            (a ∪ T.filter (fun n => isViolator K n))
            (s + (T.filter (fun n => isViolator K n)).sum (fun n => (K.attrs n).score))
            hWF' hT' (clipInv_step K T hInv) hf'
          exact ⟨this.1, this.2.1, this.2.2.1, this.2.2.2⟩

/-- Clipping a graph with no violators removes nothing and loses no score. -/
theorem clip_of_no_violators (K : KGraph)
    (hnov : ∀ n ∈ K.nodes, ¬ isViolator K n) :
    (clip_dangling_ends K).2.1 = ∅ ∧ (clip_dangling_ends K).2.2 = 0 ∧
    (clip_dangling_ends K).1.nodes = K.nodes ∧
    (clip_dangling_ends K).1.edges = K.edges := by
  unfold clip_dangling_ends
  by_cases hE : K.nodes = ∅
  · simp [clipLoop, hE]
  · obtain ⟨c, hc⟩ : ∃ c, K.nodes.card + 1 = c + 2 := by
      have : 0 < K.nodes.card :=
        Finset.card_pos.mpr (Finset.nonempty_iff_ne_empty.mpr hE)
      exact ⟨K.nodes.card - 1, by omega⟩
    rw [hc]
    simp only [clipLoop, if_neg hE]
    have hS : K.nodes.filter (fun n => isViolator K n) = ∅ :=
      Finset.filter_eq_empty_iff.mpr hnov
    rw [hS]
    simp only [Finset.biUnion_empty, Finset.empty_sdiff, removeNodes_empty,
      Finset.union_empty, Finset.sum_empty, add_zero, if_pos rfl]
    exact ⟨rfl, rfl, rfl, rfl⟩

/-- Claim C2: after one run of `clip_dangling_ends`, every remaining
non-sentinel vertex has at least one predecessor and at least one successor;
consequently a second run removes no vertices, loses no score, and leaves
the graph's vertex and edge sets unchanged. -/
theorem C2_clip_fixpoint (K : KGraph) (hWF : KWF K) :
    (∀ n ∈ (clip_dangling_ends K).1.nodes,
        n ≠ K.source → n ≠ K.sink →
        1 ≤ inDeg (clip_dangling_ends K).1 n
          ∧ 1 ≤ outDeg (clip_dangling_ends K).1 n) ∧
    (clip_dangling_ends (clip_dangling_ends K).1).2.1 = ∅ ∧
    (clip_dangling_ends (clip_dangling_ends K).1).2.2 = 0 ∧
    (clip_dangling_ends (clip_dangling_ends K).1).1.nodes
      = (clip_dangling_ends K).1.nodes ∧
    (clip_dangling_ends (clip_dangling_ends K).1).1.edges
      = (clip_dangling_ends K).1.edges := by
  have hsound := clipLoop_sound (K.nodes.card + 1) K K.nodes ∅ 0 hWF
    (Finset.Subset.refl _) (fun n hn _ => hn) (Nat.lt_succ_self _)
  have hnov : ∀ n ∈ (clip_dangling_ends K).1.nodes,
      ¬ isViolator (clip_dangling_ends K).1 n := hsound.1
  refine ⟨?_, clip_of_no_violators _ hnov⟩
  intro n hn hs hk
  have hv := hnov n hn
  unfold isViolator at hv
  push_neg at hv
  have hsrc : (clip_dangling_ends K).1.source = K.source := hsound.2.2.1
  have hsnk : (clip_dangling_ends K).1.sink = K.sink := hsound.2.2.2
  have hs' : n ≠ (clip_dangling_ends K).1.source := by
    rw [hsrc]
    exact hs
  have hk' : n ≠ (clip_dangling_ends K).1.sink := by
    rw [hsnk]
    exact hk
  have hd := hv hs' hk'
  exact ⟨Nat.one_le_iff_ne_zero.mpr hd.1, Nat.one_le_iff_ne_zero.mpr hd.2⟩

/-! ### Association-list lemmas -/

theorem alookup_eq_none {α β : Type} [DecidableEq α] {l : List (α × β)}
    {x : α} : alookup l x = none ↔ x ∉ l.map Prod.fst := by
  induction l with
  | nil => simp [alookup]
  | cons e rest ih =>
      obtain ⟨a, b⟩ := e
      by_cases hx : x = a
      · subst hx
        simp [alookup]
      · simp [alookup, hx, ih]

theorem alookup_mem {α β : Type} [DecidableEq α] {l : List (α × β)} {x : α}
    {b : β} (h : alookup l x = some b) : (x, b) ∈ l := by
  induction l with
  | nil => simp [alookup] at h
  | cons e rest ih =>
      obtain ⟨a, c⟩ := e
      by_cases hx : x = a
      · subst hx
        rw [show alookup ((x, c) :: rest) x = some c from by simp [alookup]] at h
        obtain rfl := Option.some.inj h
        exact List.mem_cons_self _ _
      · rw [show alookup ((a, c) :: rest) x = alookup rest x from by
            simp [alookup, hx]] at h
        exact List.mem_cons_of_mem _ (ih h)

theorem alookup_of_mem {α β : Type} [DecidableEq α] {l : List (α × β)}
    {x : α} {b : β} (hnd : (l.map Prod.fst).Nodup) (h : (x, b) ∈ l) :
    alookup l x = some b := by
  induction l with
  | nil => simp at h
  | cons e rest ih =>
      obtain ⟨a, c⟩ := e
      have hnd' : a ∉ rest.map Prod.fst ∧ (rest.map Prod.fst).Nodup := by
        rw [List.map_cons] at hnd
        exact List.nodup_cons.mp hnd
      rcases List.mem_cons.mp h with h1 | h1
      · injection h1 with hxa hbc
        subst hxa
        subst hbc
        simp [alookup]
      · have hx : x ≠ a := by
          intro hxa
          subst hxa
          exact hnd'.1 (List.mem_map.mpr ⟨(x, b), h1, rfl⟩)
        simp only [alookup, if_neg hx]
        exact ih hnd'.2 h1

theorem alookup_append_some {α β : Type} [DecidableEq α] {l l2 : List (α × β)}
    {x : α} {b : β} (h : alookup l x = some b) :
    alookup (l ++ l2) x = some b := by
  induction l with
  | nil => simp [alookup] at h
  | cons e rest ih =>
      obtain ⟨a, c⟩ := e
      by_cases hx : x = a
      · subst hx
        simp only [alookup, if_pos rfl] at h ⊢
        exact h
      · simp only [alookup, if_neg hx] at h ⊢
        exact ih h

theorem alookup_append_right {α β : Type} [DecidableEq α] {l l2 : List (α × β)}
    {x : α} (h : x ∉ l.map Prod.fst) :
    alookup (l ++ l2) x = alookup l2 x := by
  induction l with
  | nil => rfl
  | cons e rest ih =>
      obtain ⟨a, c⟩ := e
      have hx : x ≠ a := by
        intro hxa
        exact h (by simp [hxa])
      simp only [List.cons_append, alookup, if_neg hx]
      exact ih (fun hm => h (by simp [List.map_cons]; exact Or.inr (by simpa using hm)))

theorem snd_unique_of_keys_nodup {α β : Type} [DecidableEq α]
    {l : List (α × β)} {x : α} {b b' : β} (hnd : (l.map Prod.fst).Nodup)
    (h1 : (x, b) ∈ l) (h2 : (x, b') ∈ l) : b = b' := by
  have e1 := alookup_of_mem hnd h1
  have e2 := alookup_of_mem hnd h2
  rw [e1] at e2
  exact Option.some.inj e2

/-! ### Kmer-id allocation (assembler.py lines 221-227) -/

/-- `addKmer` preserves the build-state invariant, returns an id that maps
back to the kmer, only appends to the id table, and leaves the buckets and
kmer paths alone. -/
theorem addKmer_spec (st : BuildState) (t : Kmer) (hInv : StInv st) :
    StInv (addKmer st t).1 ∧
    alookup (addKmer st t).1.id_kmer_map (addKmer st t).2 = some t ∧
    0 ≤ (addKmer st t).2 ∧
    (∀ i u, alookup st.id_kmer_map i = some u →
      alookup (addKmer st t).1.id_kmer_map i = some u) ∧
    ((addKmer st t).1.id_kmer_map = st.id_kmer_map ∨
      (addKmer st t).1.id_kmer_map = st.id_kmer_map ++ [(st.current_id, t)]) ∧
    (addKmer st t).1.kmer_paths = st.kmer_paths ∧
    (addKmer st t).1.shorts = st.shorts := by
  unfold addKmer
  cases hl : alookup st.kmer_id_map t with
  | some i =>
      simp only []
      have hmem : (t, i) ∈ st.kmer_id_map := alookup_mem hl
      have hmem' : (i, t) ∈ st.id_kmer_map := (hInv.mem_iff i t).mpr hmem
      exact ⟨hInv, alookup_of_mem hInv.ids_nodup hmem',
        (hInv.ids_bound _ hmem').1, fun _ _ h => h, Or.inl (by trivial),
        by trivial, by trivial⟩
  | none =>
      simp only []
      have hcidout : st.current_id ∉ st.id_kmer_map.map Prod.fst := by
        intro hm
        obtain ⟨e, he, hee⟩ := List.mem_map.mp hm
        exact absurd (hee ▸ (hInv.ids_bound e he).2) (lt_irrefl _)
      have htout : t ∉ st.kmer_id_map.map Prod.fst := alookup_eq_none.mp hl
      refine ⟨⟨?_, ?_, ?_, ?_, ?_⟩, ?_, hInv.cid_nonneg, ?_,
        Or.inr (by trivial), by trivial, by trivial⟩
      · intro i u
        simp only [List.mem_append, List.mem_singleton]
        constructor
        · rintro (h | h)
          · exact Or.inl ((hInv.mem_iff i u).mp h)
          · injection h with h1 h2
            subst h1
            subst h2
            exact Or.inr rfl
        · rintro (h | h)
          · exact Or.inl ((hInv.mem_iff i u).mpr h)
          · injection h with h1 h2
            subst h1
            subst h2
            exact Or.inr rfl
      · intro e he
        show 0 ≤ e.1 ∧ e.1 < st.current_id + 1
        rcases List.mem_append.mp he with h | h
        · obtain ⟨h1, h2⟩ := hInv.ids_bound e h
          exact ⟨h1, by omega⟩
        · obtain rfl := List.mem_singleton.mp h
          exact ⟨hInv.cid_nonneg, by omega⟩
      · show (0 : Int) ≤ st.current_id + 1
        have := hInv.cid_nonneg
        omega
      · rw [List.map_append]
        refine List.nodup_append.mpr ⟨hInv.ids_nodup, List.nodup_singleton _, ?_⟩
        intro a ha hb
        obtain ⟨e, he, hee⟩ := List.mem_map.mp ha
        obtain rfl := List.mem_singleton.mp (by simpa using hb)
        exact absurd (hee ▸ (hInv.ids_bound e he).2) (lt_irrefl _)
      · rw [List.map_append]
        refine List.nodup_append.mpr ⟨hInv.keys_nodup, List.nodup_singleton _, ?_⟩
        intro a ha hb
        obtain rfl := List.mem_singleton.mp (by simpa using hb)
        exact htout ha
      · show alookup (st.id_kmer_map ++ [(st.current_id, t)]) st.current_id
            = some t
        rw [alookup_append_right hcidout]
        simp [alookup]
      · exact fun _ _ h => alookup_append_some h

/-- The empty build state satisfies the invariant. -/
theorem StInv_init : StInv initBuildState := by
  constructor <;> simp [initBuildState]

/-- `addKmers` preserves the invariant; the returned ids map back to the
given kmers pointwise; lookups and the bucket/path fields are untouched; and
every table entry is either old or carries one of the given kmers. -/
theorem addKmers_spec (kmers : List Kmer) :
    ∀ (st : BuildState), StInv st →
    StInv (addKmers st kmers).1 ∧
    List.Forall₂ (fun (i : Int) (t : Kmer) =>
        alookup (addKmers st kmers).1.id_kmer_map i = some t ∧ 0 ≤ i)
      (addKmers st kmers).2 kmers ∧
    (∀ i u, alookup st.id_kmer_map i = some u →
      alookup (addKmers st kmers).1.id_kmer_map i = some u) ∧
    (∀ e ∈ (addKmers st kmers).1.id_kmer_map,
      e ∈ st.id_kmer_map ∨ e.2 ∈ kmers) ∧
    (addKmers st kmers).1.kmer_paths = st.kmer_paths ∧
    (addKmers st kmers).1.shorts = st.shorts := by
  induction kmers with
  | nil =>
      intro st hInv
      exact ⟨hInv, List.Forall₂.nil, fun _ _ h => h, fun e he => Or.inl he,
        rfl, rfl⟩
  | cons t rest ih =>
      intro st hInv
      have h1 := addKmer_spec st t hInv
      have h2 := ih (addKmer st t).1 h1.1
      simp only [addKmers]
      refine ⟨h2.1, ?_, ?_, ?_, ?_, ?_⟩
      · exact List.Forall₂.cons
          ⟨h2.2.2.1 _ _ h1.2.1, h1.2.2.1⟩ h2.2.1
      · exact fun i u h => h2.2.2.1 i u (h1.2.2.2.1 i u h)
      · intro e he
        rcases h2.2.2.2.1 e he with h | h
        · rcases h1.2.2.2.2.1 with hmap | hmap
          · rw [hmap] at h
            exact Or.inl h
          · rw [hmap] at h
            rcases List.mem_append.mp h with h' | h'
            · exact Or.inl h'
            · obtain rfl := List.mem_singleton.mp h'
              exact Or.inr (List.mem_cons_self _ _)
        · exact Or.inr (List.mem_cons_of_mem _ h)
      · rw [h2.2.2.2.2.1, h1.2.2.2.2.2.1]
      · rw [h2.2.2.2.2.2, h1.2.2.2.2.2.2]

/-- `processPath` preserves the build-state invariant. -/
theorem processPath_StInv (sn en : Finset Int) (k : Nat) (st : BuildState)
    (pp : List Int × ℚ) (hInv : StInv st) :
    StInv (processPath sn en k st pp) := by
  simp only [processPath]
  split
  · exact ⟨hInv.mem_iff, hInv.ids_bound, hInv.cid_nonneg, hInv.ids_nodup,
      hInv.keys_nodup⟩
  · have h := (addKmers_spec
      (if pp.1.length < k then [pp.1] else get_kmers pp.1 k) st hInv).1
    exact ⟨h.mem_iff, h.ids_bound, h.cid_nonneg, h.ids_nodup, h.keys_nodup⟩

/-- Folding `processPath` over the partial paths preserves the invariant. -/
theorem foldl_processPath_StInv (sn en : Finset Int) (k : Nat)
    (pps : List (List Int × ℚ)) :
    ∀ st, StInv st → StInv (pps.foldl (processPath sn en k) st) := by
  induction pps with
  | nil => exact fun st h => h
  | cons pp rest ih =>
      intro st hInv
      exact ih _ (processPath_StInv sn en k st pp hInv)

/-! ### The id-kmer side table is fixed once phase 1 ends -/

theorem addNode_id_map (K : KGraph) (n : Int) :
    (addNode K n).id_kmer_map = K.id_kmer_map := by
  unfold addNode
  split <;> rfl

theorem add_path_loop_id_map (score : ℚ) (rest : List Int) :
    ∀ (K : KGraph) (f : Int),
    (add_path_loop score K f rest).id_kmer_map = K.id_kmer_map := by
  induction rest with
  | nil => intro K f; rfl
  | cons t rest ih =>
      intro K f
      simp only [add_path_loop]
      rw [ih]
      rw [show (bump (addNode K t) t
          (fun a => { a with score := a.score + score })).id_kmer_map
        = (addNode K t).id_kmer_map from rfl]
      exact addNode_id_map K t

theorem add_path_id_map (K : KGraph) (p : List Int) (s : ℚ) :
    (add_path K p s).id_kmer_map = K.id_kmer_map := by
  cases p with
  | nil => rfl
  | cons f rest =>
      simp only [add_path]
      rw [add_path_loop_id_map]
      exact addNode_id_map K f

theorem foldl_add_path_id_map (ps : List (List Int × ℚ)) :
    ∀ K : KGraph,
    (ps.foldl (fun K p => add_path K p.1 p.2) K).id_kmer_map = K.id_kmer_map := by
  induction ps with
  | nil => intro K; rfl
  | cons p rest ih =>
      intro K
      simp only [List.foldl_cons]
      rw [ih, add_path_id_map]

theorem clipLoop_id_map (fuel : Nat) :
    ∀ (K : KGraph) (T a : Finset Int) (s : ℚ),
    (clipLoop fuel K T a s).1.id_kmer_map = K.id_kmer_map := by
  induction fuel with
  | zero => intro K T a s; rfl
  | succ fuel ih =>
      intro K T a s
      simp only [clipLoop]
      split
      · rfl
      · rw [ih]
        rfl

theorem clip_id_map (K : KGraph) :
    (clip_dangling_ends K).1.id_kmer_map = K.id_kmer_map :=
  clipLoop_id_map _ K _ _ _

/-- The side table of a successfully built kmer graph is exactly the table
accumulated by the phase-1 loop. -/
theorem create_id_map (G : SpliceGraph) (pps : List (List Int × ℚ)) (k : Nat)
    (r : CreateResult) (h : create_kmer_graph G pps k = some r) :
    r.K.id_kmer_map =
      (pps.foldl (processPath (get_start_end_nodes G).1
        (get_start_end_nodes G).2 k) initBuildState).id_kmer_map := by
  unfold create_kmer_graph at h
  split at h
  · exact absurd h (by simp)
  · dsimp only [] at h
    split at h
    · exact absurd h (by simp)
    · obtain rfl := (Option.some.inj h).symm
      show (clip_dangling_ends _).1.id_kmer_map = _
      rw [clip_id_map, foldl_add_path_id_map, foldl_add_path_id_map]

/-- Claim C4: kmer graph construction never creates two distinct vertices
with equal kmer tuples (the side table's tuples are pairwise distinct); and
in the shared-window scenario at `k = 2`, the window `[1,2]` shared by the
two paths of `ppFork` is the single vertex `0`, whose accumulated score is
the sum `5 + 7` of both paths' contributions. -/
theorem C4_kmer_vertices_unique :
    (∀ (G : SpliceGraph) (pps : List (List Int × ℚ)) (k : Nat)
        (r : CreateResult), create_kmer_graph G pps k = some r →
      r.K.id_kmer_map.Pairwise (fun a b => a.2 ≠ b.2)) ∧
    (create_kmer_graph Gfork ppFork 2).map
        (fun r => (r.K.id_kmer_map, (r.K.attrs 0).score))
      = some ([(0, [1, 2]), (1, [2, 3]), (2, [2, 4])], 5 + 7) := by
  constructor
  · intro G pps k r h
    rw [create_id_map G pps k r h]
    have hInv := foldl_processPath_StInv (get_start_end_nodes G).1
      (get_start_end_nodes G).2 k pps initBuildState StInv_init
    have hfst : ((pps.foldl (processPath (get_start_end_nodes G).1
        (get_start_end_nodes G).2 k) initBuildState).id_kmer_map.map
          Prod.fst).Nodup := hInv.ids_nodup
    have hpair := (List.pairwise_map.mp hfst)
    refine hpair.imp_of_mem ?_
    intro a b ha hb hne hsnd
    apply hne
    have h1 := (hInv.mem_iff a.1 a.2).mp ha
    have h2 := (hInv.mem_iff b.1 b.2).mp hb
    rw [hsnd] at h1
    exact snd_unique_of_keys_nodup hInv.keys_nodup h1 h2
  · with_unfolding_all decide

/-- Witness for C4's universal part at the concrete fork scenario. -/
theorem C4_kmer_vertices_unique_witness :
    ((create_kmer_graph Gfork ppFork 2).map (fun r => r.K.id_kmer_map)
        = some [(0, [1, 2]), (1, [2, 3]), (2, [2, 4])]) ∧
    [((0 : Int), [(1 : Int), 2]), (1, [2, 3]), (2, [2, 4])].Pairwise
      (fun a b => a.2 ≠ b.2) := by
  constructor
  · with_unfolding_all decide
  · have h := C4_kmer_vertices_unique.1 Gfork ppFork 2
      ((create_kmer_graph Gfork ppFork 2).get (by with_unfolding_all decide))
      (Option.some_get _).symm
    have hmap : ((create_kmer_graph Gfork ppFork 2).get
        (by with_unfolding_all decide)).K.id_kmer_map
        = [((0 : Int), [(1 : Int), 2]), (1, [2, 3]), (2, [2, 4])] := by
      with_unfolding_all decide
    rw [hmap] at h
    exact h

/-- Claim C8: a partial path shorter than `k` that is full-length (first
node a leaf source, last node a leaf sink) is converted to exactly one kmer
vertex equal to the whole path, bracketed by `SOURCE` and `SINK`, and the
short-path bucket is untouched — the path never reaches the hash-matching
machinery. -/
theorem C8_short_full_length (sn en : Finset Int) (k : Nat) (st : BuildState)
    (path : List Int) (score : ℚ) (hInv : StInv st)
    (hlen : path.length < k)
    (hstart : path.headD 0 ∈ sn) (hend : path.getLastD 0 ∈ en) :
    (processPath sn en k st (path, score)).kmer_paths
      = st.kmer_paths ++ [([SOURCE, (addKmer st path).2, SINK], score)] ∧
    alookup (processPath sn en k st (path, score)).id_kmer_map
      (addKmer st path).2 = some path ∧
    (processPath sn en k st (path, score)).shorts = st.shorts := by
  have hspec := addKmer_spec st path hInv
  have hcond : ¬(path.length < k
      ∧ ¬(path.headD 0 ∈ sn ∧ path.getLastD 0 ∈ en)) :=
    fun hc => hc.2 ⟨hstart, hend⟩
  simp only [processPath]
  rw [if_neg hcond, if_pos hlen]
  simp only [addKmers]
  rw [if_pos hstart, if_pos hend]
  refine ⟨?_, ?_, ?_⟩
  · show (addKmer st path).1.kmer_paths
        ++ [([SOURCE] ++ [(addKmer st path).2] ++ [SINK], score)]
      = st.kmer_paths ++ [([SOURCE, (addKmer st path).2, SINK], score)]
    rw [hspec.2.2.2.2.2.1]
    rfl
  · exact hspec.2.1
  · exact hspec.2.2.2.2.2.2

/-- Witness for C8: the length-1 full-length path `[4]` at `k = 2` becomes
the single kmer vertex `[4]` between the sentinels, bypassing the bucket. -/
theorem C8_short_full_length_witness :
    (processPath {4} {4} 2 initBuildState ([4], 3)).kmer_paths
      = [] ++ [([SOURCE, (addKmer initBuildState [4]).2, SINK], 3)] ∧
    alookup (processPath {4} {4} 2 initBuildState ([4], 3)).id_kmer_map
      (addKmer initBuildState [4]).2 = some [4] ∧
    (processPath {4} {4} 2 initBuildState ([4], 3)).shorts = [] :=
  C8_short_full_length {4} {4} 2 initBuildState [4] 3 StInv_init
    (by decide) (by decide) (by decide)

/-! ### The k search (claim C5) -/

theorem acceptsAt_elim {G : SpliceGraph} {pps : List (List Int × ℚ)} {thr : ℚ}
    {k : Nat} (h : acceptsAt G pps thr k = true) :
    ∃ r, create_kmer_graph G pps k = some r ∧ pathsScore pps ≠ 0 ∧
      r.K.nodes.card ≠ 0 ∧
      ¬((pathsScore pps - (pathsScore r.lost_paths + r.clip_score))
          / pathsScore pps < thr) := by
  unfold acceptsAt at h
  cases hc : create_kmer_graph G pps k with
  | none =>
      rw [hc] at h
      simp at h
  | some r =>
      rw [hc] at h
      simp only [Bool.and_eq_true, decide_eq_true_eq] at h
      exact ⟨r, rfl, h.1.1, h.1.2, h.2⟩

theorem rejectsAt_elim {G : SpliceGraph} {pps : List (List Int × ℚ)} {thr : ℚ}
    {k : Nat} (h : rejectsAt G pps thr k = true) :
    ∃ r, create_kmer_graph G pps k = some r ∧ pathsScore pps ≠ 0 ∧
      r.K.nodes.card ≠ 0 ∧
      (pathsScore pps - (pathsScore r.lost_paths + r.clip_score))
          / pathsScore pps < thr := by
  unfold rejectsAt at h
  cases hc : create_kmer_graph G pps k with
  | none =>
      rw [hc] at h
      simp at h
  | some r =>
      rw [hc] at h
      simp only [Bool.and_eq_true, decide_eq_true_eq] at h
      exact ⟨r, rfl, h.1.1, h.1.2, h.2⟩

/-- An accepted candidate `k` makes the loop continue with `last := (K, k)`. -/
theorem optLoop_cons_accept {G : SpliceGraph} {pps : List (List Int × ℚ)}
    {thr : ℚ} {k : Nat} {r : CreateResult} (ks : List Nat)
    (last : Option (KGraph × Nat))
    (hc : create_kmer_graph G pps k = some r)
    (h1 : pathsScore pps ≠ 0) (h2 : r.K.nodes.card ≠ 0)
    (h3 : ¬((pathsScore pps - (pathsScore r.lost_paths + r.clip_score))
        / pathsScore pps < thr)) :
    optLoop G pps (pathsScore pps) thr (k :: ks) last
      = optLoop G pps (pathsScore pps) thr ks (some (r.K, k)) := by
  simp only [optLoop, hc]
  rw [if_neg h1, if_neg h2, if_neg h3]

/-- A rejected candidate `k` stops the loop with the previous `last`. -/
theorem optLoop_cons_reject {G : SpliceGraph} {pps : List (List Int × ℚ)}
    {thr : ℚ} {k : Nat} {r : CreateResult} (ks : List Nat)
    (last : Option (KGraph × Nat))
    (hc : create_kmer_graph G pps k = some r)
    (h1 : pathsScore pps ≠ 0) (h2 : r.K.nodes.card ≠ 0)
    (h3 : (pathsScore pps - (pathsScore r.lost_paths + r.clip_score))
        / pathsScore pps < thr) :
    optLoop G pps (pathsScore pps) thr (k :: ks) last = some last := by
  simp only [optLoop, hc]
  rw [if_neg h1, if_neg h2, if_pos h3]

/-- Running the loop across `b + 1` accepted candidates `a, ..., a + b`
reaches the state where `last = (K_{a+b}, a+b)` and the remaining candidates
are `a+b+1, ...`; the initial `last` is discarded. -/
theorem optLoop_run (G : SpliceGraph) (pps : List (List Int × ℚ)) (thr : ℚ)
    (b : Nat) :
    ∀ (a m : Nat) (last : Option (KGraph × Nat)),
    (∀ k', a ≤ k' → k' ≤ a + b → acceptsAt G pps thr k' = true) →
    ∃ r, create_kmer_graph G pps (a + b) = some r ∧
      optLoop G pps (pathsScore pps) thr (List.range' a (b + 1 + m)) last
        = optLoop G pps (pathsScore pps) thr (List.range' (a + b + 1) m)
            (some (r.K, a + b)) := by
  induction b with
  | zero =>
      intro a m last hacc
      obtain ⟨r, hc, h1, h2, h3⟩ := acceptsAt_elim (hacc a le_rfl (by omega))
      refine ⟨r, by simpa using hc, ?_⟩
      have hr : List.range' a (0 + 1 + m) = a :: List.range' (a + 1) m := by
        have : 0 + 1 + m = m + 1 := by omega
        rw [this]
        rfl
      rw [hr, optLoop_cons_accept _ _ hc h1 h2 h3]
      have ha : a + 0 = a := by omega
      rw [ha]
  | succ b ih =>
      intro a m last hacc
      obtain ⟨ra, hca, h1, h2, h3⟩ := acceptsAt_elim (hacc a le_rfl (by omega))
      obtain ⟨r, hc, hrec⟩ := ih (a + 1) m (some (ra.K, a))
        (fun k' hk1 hk2 => hacc k' (by omega) (by omega))
      have hone : a + 1 + b = a + (b + 1) := by omega
      rw [hone] at hc
      refine ⟨r, hc, ?_⟩
      have hr : List.range' a (b + 1 + 1 + m)
          = a :: List.range' (a + 1) (b + 1 + m) := by
        have : b + 1 + 1 + m = (b + 1 + m) + 1 := by omega
        rw [this]
        rfl
      rw [hr, optLoop_cons_accept _ _ hca h1 h2 h3]
      rw [hone] at hrec
      exact hrec

/-- Claim C5: if every candidate from `kmin` up to `jp` is accepted and the
sensitivity at `jp + 1` falls strictly below the threshold, then `jp + 1` is
not accepted, the search returns the `(graph, k)` pair built at the largest
accepted candidate `jp`, and no candidate larger than `jp + 1` is ever
evaluated: the result is the same whatever `kmax ≥ jp + 1` is, and equals
the run truncated at `jp + 1`. -/
theorem C5_early_stop (G : SpliceGraph) (pps : List (List Int × ℚ))
    (thr : ℚ) (kmin jp kmax : Nat)
    (hlow : kmin ≤ jp) (hhigh : jp + 1 ≤ kmax)
    (hacc : ∀ k', kmin ≤ k' → k' ≤ jp → acceptsAt G pps thr k' = true)
    (hrej : rejectsAt G pps thr (jp + 1) = true) :
    optimize_k G pps kmin kmax thr
      = (create_kmer_graph G pps jp).map (fun r => some (r.K, jp)) ∧
    optimize_k G pps kmin kmax thr = optimize_k G pps kmin (jp + 1) thr := by
  obtain ⟨rj, hcj, hj1, hj2, hj3⟩ := rejectsAt_elim hrej
  have main : ∀ m : Nat, 1 ≤ m →
      optLoop G pps (pathsScore pps) thr
          (List.range' kmin ((jp - kmin) + 1 + m)) none
        = (create_kmer_graph G pps jp).map (fun r => some (r.K, jp)) := by
    intro m hm
    obtain ⟨r, hc, hrun⟩ := optLoop_run G pps thr (jp - kmin) kmin m none
      (fun k' h1 h2 => hacc k' h1 (by omega))
    have hjp : kmin + (jp - kmin) = jp := by omega
    rw [hjp] at hc hrun
    rw [hrun]
    obtain ⟨m', rfl⟩ : ∃ m', m = m' + 1 := ⟨m - 1, by omega⟩
    rw [show List.range' (jp + 1) (m' + 1)
        = (jp + 1) :: List.range' (jp + 2) m' from rfl]
    rw [optLoop_cons_reject _ _ hcj hj1 hj2 hj3]
    rw [hc]
    rfl
  constructor
  · show optLoop G pps (pathsScore pps) thr
        (List.range' kmin (kmax + 1 - kmin)) none = _
    have harith : kmax + 1 - kmin = (jp - kmin) + 1 + (kmax - jp) := by omega
    rw [harith]
    exact main (kmax - jp) (by omega)
  · show optLoop G pps (pathsScore pps) thr
          (List.range' kmin (kmax + 1 - kmin)) none
        = optLoop G pps (pathsScore pps) thr
          (List.range' kmin (jp + 1 + 1 - kmin)) none
    have h1 : kmax + 1 - kmin = (jp - kmin) + 1 + (kmax - jp) := by omega
    have h2 : jp + 1 + 1 - kmin = (jp - kmin) + 1 + 1 := by omega
    rw [h1, h2, main (kmax - jp) (by omega), main 1 le_rfl]

/-- Witness for C5: with `GforkSink`/`ppStop` and threshold `99/100`,
`k = 1` is accepted (sensitivity 1), `k = 2` is rejected (sensitivity
31/32), and the search over `kmax = 3` returns the pair built at `k = 1`
without evaluating `k = 3`. -/
theorem C5_early_stop_witness :
    optimize_k GforkSink ppStop 1 3 (99 / 100)
      = (create_kmer_graph GforkSink ppStop 1).map (fun r => some (r.K, 1)) ∧
    optimize_k GforkSink ppStop 1 3 (99 / 100)
      = optimize_k GforkSink ppStop 1 2 (99 / 100) :=
  C5_early_stop GforkSink ppStop (99 / 100) 1 1 3 le_rfl (by omega)
    (fun k' h1 h2 => by
      have : k' = 1 := by omega
      subst this
      with_unfolding_all decide)
    (by with_unfolding_all decide)

/-! ### Chain and window lemmas for the reconstruction claim (C9) -/

theorem chain'_pair_mem {α : Type} {R : α → α → Prop} :
    ∀ {l : List α}, List.Chain' R l → ∀ e ∈ List.zip l l.tail, R e.1 e.2 := by
  intro l
  induction l with
  | nil => intro _ e he; simp at he
  | cons a l ih =>
      intro h e he
      cases l with
      | nil => simp at he
      | cons b rest =>
          rcases List.mem_cons.mp he with h1 | h1
          · subst h1
            exact (List.chain'_cons.mp h).1
          · exact ih (List.chain'_cons.mp h).2 e h1

theorem chain'_of_zip {α : Type} {R : α → α → Prop} :
    ∀ (l : List α), (∀ e ∈ List.zip l l.tail, R e.1 e.2) → List.Chain' R l := by
  intro l
  induction l with
  | nil => intro _; trivial
  | cons a l ih =>
      intro h
      cases l with
      | nil => exact List.chain'_singleton _
      | cons b rest =>
          refine List.chain'_cons.mpr ⟨h (a, b) (List.mem_cons_self _ _), ?_⟩
          exact ih (fun e he => h e (List.mem_cons_of_mem _ he))

theorem zip_tail_mem {α : Type} :
    ∀ (l : List α) (e : α × α), e ∈ List.zip l l.tail → e.1 ∈ l ∧ e.2 ∈ l := by
  intro l
  induction l with
  | nil => intro e he; simp at he
  | cons a l ih =>
      intro e he
      cases l with
      | nil => simp at he
      | cons b rest =>
          rcases List.mem_cons.mp he with h1 | h1
          · subst h1
            exact ⟨List.mem_cons_self _ _,
              List.mem_cons_of_mem _ (List.mem_cons_self _ _)⟩
          · obtain ⟨m1, m2⟩ := ih e h1
            exact ⟨List.mem_cons_of_mem _ m1, List.mem_cons_of_mem _ m2⟩

theorem chain'_forall₂ {P : Int → Kmer → Prop} {R : Kmer → Kmer → Prop}
    {S : Int → Int → Prop}
    (himp : ∀ i t i2 t2, P i t → P i2 t2 → R t t2 → S i i2) :
    ∀ {ids : List Int} {ts : List Kmer},
    List.Forall₂ P ids ts → List.Chain' R ts → List.Chain' S ids := by
  intro ids ts hf
  induction hf with
  | nil => intro _; trivial
  | cons hP hf ih =>
      intro hc
      rename_i i t ids' ts'
      cases hf with
      | nil => exact List.chain'_singleton _
      | cons hP2 hf2 =>
          rename_i i2 t2 ids'' ts''
          refine List.chain'_cons.mpr ⟨himp _ _ _ _ hP hP2
            (List.chain'_cons.mp hc).1, ?_⟩
          exact ih (List.chain'_cons.mp hc).2

theorem pySlice_length {l : List Int} {i k : Nat} (h : i + k ≤ l.length) :
    (pySlice l i k).length = k := by
  unfold pySlice
  rw [List.length_take, List.length_drop]
  omega

theorem pySlice_overlap {l : List Int} {i k : Nat} (hk : 1 ≤ k)
    (h : (i + 1) + k ≤ l.length) :
    (pySlice l i k).drop 1 = (pySlice l (i + 1) k).dropLast := by
  have h1 : (pySlice l i k).drop 1 = pySlice l (i + 1) (k - 1) := by
    unfold pySlice
    rw [List.drop_take, List.drop_drop]
  have h2 : (pySlice l (i + 1) k).dropLast = pySlice l (i + 1) (k - 1) := by
    have hlen : (pySlice l (i + 1) k).length = k := pySlice_length h
    rw [List.dropLast_eq_take, hlen]
    unfold pySlice
    rw [List.take_take]
    have : min (k - 1) k = k - 1 := by omega
    rw [this]
  rw [h1, h2]

/-- Core reconstruction fact: if every tuple is a full `k`-window and
consecutive tuples overlap in all but one position, then the `j`-th tuple is
the `j`-th window of "first tuple followed by the last element of each
subsequent tuple". -/
theorem recon_windows (k : Nat) (hk : 1 ≤ k) :
    ∀ (ts : List Kmer) (t0 : Kmer),
    t0.length = k → (∀ t ∈ ts, t.length = k) →
    List.Chain' (fun a b : Kmer => a.drop 1 = b.dropLast) (t0 :: ts) →
    ∀ j : Nat, j < ts.length + 1 →
      (t0 :: ts).get? j
        = some (((t0 ++ ts.map (fun t => t.getLastD 0)).drop j).take k) := by
  intro ts
  induction ts with
  | nil =>
      intro t0 h0 _ _ j hj
      simp only [List.length_nil] at hj
      obtain rfl : j = 0 := by omega
      show some t0 = some _
      rw [List.map_nil, List.append_nil, List.drop_zero, ← h0, List.take_length]
  | cons t1 ts ih =>
      intro t0 h0 hlen hchain j hj
      have hch := List.chain'_cons.mp hchain
      have h1 : t1.length = k := hlen t1 (List.mem_cons_self _ _)
      cases j with
      | zero =>
          show some t0 = some _
          rw [List.drop_zero, ← h0, List.take_left]
      | succ j =>
          have ihx := ih t1 h1 (fun t ht => hlen t (List.mem_cons_of_mem _ ht))
            hch.2 j (by simp only [List.length_cons] at hj; omega)
          show (t1 :: ts).get? j = _
          rw [ihx]
          have hd1 : (t0 ++ (t1.getLastD 0) :: ts.map (fun t => t.getLastD 0)).drop 1
              = t1 ++ ts.map (fun t => t.getLastD 0) := by
            rw [List.drop_append_of_le_length (by omega)]
            rw [hch.1]
            rcases List.eq_nil_or_concat t1 with hnil | ⟨L, b, hLb⟩
            · rw [hnil] at h1
              simp at h1
              omega
            · rw [List.concat_eq_append] at hLb
              subst hLb
              rw [List.dropLast_concat]
              simp
          have hdj : (t0 ++ (t1.getLastD 0) :: ts.map (fun t => t.getLastD 0)).drop (j + 1)
              = (t1 ++ ts.map (fun t => t.getLastD 0)).drop j := by
            rw [← hd1, List.drop_drop]
            rw [show (1 : Nat) + j = j + 1 from by omega]
          rw [show (t0 ++ (t1 :: ts).map (fun t => t.getLastD 0)).drop (j + 1)
              = (t1 ++ ts.map (fun t => t.getLastD 0)).drop j from hdj]

/-! ### Shape preservation through graph construction -/

theorem addNode_mem_self (K : KGraph) (n : Int) : n ∈ (addNode K n).nodes := by
  unfold addNode
  split
  · assumption
  · exact Finset.mem_insert_self _ _

theorem addNode_nodes_sub (K : KGraph) (n : Int) :
    K.nodes ⊆ (addNode K n).nodes := by
  unfold addNode
  split
  · exact Finset.Subset.refl _
  · exact Finset.subset_insert _ _

theorem addNode_nodes_mem {K : KGraph} {n m : Int}
    (h : m ∈ (addNode K n).nodes) : m ∈ K.nodes ∨ m = n := by
  unfold addNode at h
  split at h
  · exact Or.inl h
  · rcases Finset.mem_insert.mp h with h | h
    · exact Or.inr h
    · exact Or.inl h

theorem addNode_edges (K : KGraph) (n : Int) :
    (addNode K n).edges = K.edges := by
  unfold addNode
  split <;> rfl

theorem add_path_loop_mem (score : ℚ) (rest : List Int) :
    ∀ (K : KGraph) (f : Int),
    (∀ n ∈ (add_path_loop score K f rest).nodes, n ∈ K.nodes ∨ n ∈ rest) ∧
    (∀ e ∈ (add_path_loop score K f rest).edges,
      e ∈ K.edges ∨ e ∈ List.zip (f :: rest) rest) := by
  induction rest with
  | nil =>
      intro K f
      exact ⟨fun n hn => Or.inl hn, fun e he => Or.inl he⟩
  | cons t rest ih =>
      intro K f
      constructor
      · intro n hn
        rcases (ih _ t).1 n hn with h | h
        · rcases addNode_nodes_mem (h : n ∈ (addNode K t).nodes) with h | h
          · exact Or.inl h
          · exact Or.inr (h ▸ List.mem_cons_self t rest)
        · exact Or.inr (List.mem_cons_of_mem _ h)
      · intro e he
        rcases (ih _ t).2 e he with h | h
        · have h' : e ∈ insert (f, t) (addNode K t).edges := h
          rcases Finset.mem_insert.mp h' with h | h
          · exact Or.inr (h ▸ List.mem_cons_self _ _)
          · rw [addNode_edges] at h
            exact Or.inl h
        · exact Or.inr (List.mem_cons_of_mem _ h)

theorem add_path_mem (K : KGraph) (p : List Int) (s : ℚ) :
    (∀ n ∈ (add_path K p s).nodes, n ∈ K.nodes ∨ n ∈ p) ∧
    (∀ e ∈ (add_path K p s).edges, e ∈ K.edges ∨ e ∈ List.zip p p.tail) := by
  cases p with
  | nil => exact ⟨fun n hn => Or.inl hn, fun e he => Or.inl he⟩
  | cons f rest =>
      constructor
      · intro n hn
        rcases (add_path_loop_mem s rest _ f).1 n hn with h | h
        · rcases addNode_nodes_mem (h : n ∈ (addNode K f).nodes) with h | h
          · exact Or.inl h
          · exact Or.inr (h ▸ List.mem_cons_self f rest)
        · exact Or.inr (List.mem_cons_of_mem _ h)
      · intro e he
        rcases (add_path_loop_mem s rest _ f).2 e he with h | h
        · rw [show (bump (bump (addNode K f)
                f (fun a => { a with score := a.score + s }))
              f (fun a => { a with smooth_rev := a.smooth_rev + s })).edges
            = K.edges from addNode_edges K f] at h
          exact Or.inl h
        · exact Or.inr h

theorem add_path_loop_KWF (score : ℚ) (rest : List Int) :
    ∀ (K : KGraph) (f : Int), KWF K → f ∈ K.nodes →
    KWF (add_path_loop score K f rest) := by
  induction rest with
  | nil => intro K f h _; exact h
  | cons t rest ih =>
      intro K f hWF hf
      apply ih
      · intro e he
        have h' : e ∈ insert (f, t) (addNode K t).edges := he
        rcases Finset.mem_insert.mp h' with h | h
        · subst h
          exact ⟨addNode_nodes_sub K t hf, addNode_mem_self K t⟩
        · rw [addNode_edges] at h
          obtain ⟨h1, h2⟩ := hWF e h
          exact ⟨addNode_nodes_sub K t h1, addNode_nodes_sub K t h2⟩
      · exact addNode_mem_self K t

theorem add_path_KWF (K : KGraph) (p : List Int) (s : ℚ) (h : KWF K) :
    KWF (add_path K p s) := by
  cases p with
  | nil => exact h
  | cons f rest =>
      apply add_path_loop_KWF
      · intro e he
        rw [show (bump (bump (addNode K f)
                f (fun a => { a with score := a.score + s }))
              f (fun a => { a with smooth_rev := a.smooth_rev + s })).edges
            = K.edges from addNode_edges K f] at he
        obtain ⟨h1, h2⟩ := h e he
        exact ⟨addNode_nodes_sub K f h1, addNode_nodes_sub K f h2⟩
      · exact addNode_mem_self K f

theorem foldl_add_path_KWF (ps : List (List Int × ℚ)) :
    ∀ K : KGraph, KWF K →
    KWF (ps.foldl (fun K p => add_path K p.1 p.2) K) := by
  induction ps with
  | nil => exact fun K h => h
  | cons p rest ih =>
      intro K h
      exact ih _ (add_path_KWF K p.1 p.2 h)

theorem GoodK_add_path {idk : List (Int × Kmer)} {k : Nat} {K : KGraph}
    {p : List Int} {s : ℚ} (hK : GoodK idk k K) (hp : GoodKp idk k p) :
    GoodK idk k (add_path K p s) := by
  constructor
  · intro n hn
    rcases (add_path_mem K p s).1 n hn with h | h
    · exact hK.1 n h
    · exact hp.1 n h
  · intro e he
    rcases (add_path_mem K p s).2 e he with h | h
    · exact hK.2 e h
    · exact chain'_pair_mem hp.2 e h

theorem GoodK_foldl (idk : List (Int × Kmer)) (k : Nat)
    (ps : List (List Int × ℚ)) (hps : ∀ q ∈ ps, GoodKp idk k q.1) :
    ∀ K : KGraph, GoodK idk k K →
    GoodK idk k (ps.foldl (fun K p => add_path K p.1 p.2) K) := by
  induction ps with
  | nil => exact fun K h => h
  | cons p rest ih =>
      intro K h
      exact ih (fun q hq => hps q (List.mem_cons_of_mem _ hq)) _
        (GoodK_add_path h (hps p (List.mem_cons_self _ _)))

theorem clipLoop_subsets (fuel : Nat) :
    ∀ (K : KGraph) (T a : Finset Int) (s : ℚ),
    (clipLoop fuel K T a s).1.nodes ⊆ K.nodes ∧
    (clipLoop fuel K T a s).1.edges ⊆ K.edges := by
  induction fuel with
  | zero =>
      intro K T a s
      exact ⟨Finset.Subset.refl _, Finset.Subset.refl _⟩
  | succ fuel ih =>
      intro K T a s
      simp only [clipLoop]
      split
      · exact ⟨Finset.Subset.refl _, Finset.Subset.refl _⟩
      · obtain ⟨h1, h2⟩ := ih (removeNodes K (T.filter (fun n => isViolator K n)))
          ((T.filter (fun n => isViolator K n)).biUnion
              (fun n => if inDeg K n = 0 then successors K n else predecessors K n)
            \ T.filter (fun n => isViolator K n))
          (a ∪ T.filter (fun n => isViolator K n))
          (s + (T.filter (fun n => isViolator K n)).sum (fun n => (K.attrs n).score))
        refine ⟨h1.trans ?_, h2.trans ?_⟩
        · exact Finset.sdiff_subset
        · exact Finset.filter_subset _ _

theorem goodNode_lext {idk idk2 : List (Int × Kmer)} {k : Nat} {n : Int}
    (hl : lext idk idk2) (h : goodNode idk k n) : goodNode idk2 k n := by
  rcases h with h | h | ⟨t, h1, h2, h3⟩
  · exact Or.inl h
  · exact Or.inr (Or.inl h)
  · exact Or.inr (Or.inr ⟨t, hl _ _ h1, h2, h3⟩)

theorem goodStep_lext {idk idk2 : List (Int × Kmer)} {k : Nat} {u v : Int}
    (hl : lext idk idk2) (h : goodStep idk k u v) : goodStep idk2 k u v := by
  obtain ⟨tu, tv, h1, h2, h3, h4, h5⟩ := h
  exact ⟨tu, tv, hl _ _ h1, hl _ _ h2, h3, h4, h5⟩

theorem sentinelOr_lext {idk idk2 : List (Int × Kmer)} {k : Nat} {u v : Int}
    (hl : lext idk idk2) (h : sentinelOr idk k u v) : sentinelOr idk2 k u v := by
  rcases h with h | h | h | h | h
  · exact Or.inl h
  · exact Or.inr (Or.inl h)
  · exact Or.inr (Or.inr (Or.inl h))
  · exact Or.inr (Or.inr (Or.inr (Or.inl h)))
  · exact Or.inr (Or.inr (Or.inr (Or.inr (goodStep_lext hl h))))

theorem GoodKp_lext {idk idk2 : List (Int × Kmer)} {k : Nat} {kp : List Int}
    (hl : lext idk idk2) (h : GoodKp idk k kp) : GoodKp idk2 k kp :=
  ⟨fun n hn => goodNode_lext hl (h.1 n hn),
   h.2.imp (fun _ _ hs => sentinelOr_lext hl hs)⟩

theorem forall₂_mem_left {P : Int → Kmer → Prop} :
    ∀ {ids : List Int} {ts : List Kmer}, List.Forall₂ P ids ts →
    ∀ i ∈ ids, ∃ t ∈ ts, P i t := by
  intro ids ts hf
  induction hf with
  | nil => intro i hi; simp at hi
  | cons hP hf ih =>
      intro i hi
      rcases List.mem_cons.mp hi with h | h
      · subst h
        exact ⟨_, List.mem_cons_self _ _, hP⟩
      · obtain ⟨t, ht, hPt⟩ := ih i h
        exact ⟨t, List.mem_cons_of_mem _ ht, hPt⟩

theorem forall₂_and_right {P : Int → Kmer → Prop} {Q : Kmer → Prop} :
    ∀ {ids : List Int} {ts : List Kmer}, List.Forall₂ P ids ts →
    (∀ t ∈ ts, Q t) → List.Forall₂ (fun i t => P i t ∧ Q t) ids ts := by
  intro ids ts hf
  induction hf with
  | nil => intro _; exact List.Forall₂.nil
  | cons hP hf ih =>
      intro hQ
      exact List.Forall₂.cons ⟨hP, hQ _ (List.mem_cons_self _ _)⟩
        (ih (fun t ht => hQ t (List.mem_cons_of_mem _ ht)))

theorem get_kmers_length {path : List Int} {k : Nat} (hk : 1 ≤ k) :
    ∀ t ∈ get_kmers path k, t.length = k := by
  intro t ht
  unfold get_kmers at ht
  obtain ⟨i, hi, rfl⟩ := List.mem_map.mp ht
  have hi' : i < path.length - (k - 1) := List.mem_range.mp hi
  exact pySlice_length (by omega)

theorem get_kmers_chain {path : List Int} {k : Nat} (hk : 1 ≤ k)
    (hlen : k ≤ path.length) :
    List.Chain' (fun a b : Kmer => a.drop 1 = b.dropLast) (get_kmers path k) := by
  unfold get_kmers
  rw [List.chain'_map]
  rcases Nat.eq_zero_or_pos (path.length - (k - 1)) with h0 | hpos
  · rw [h0, List.range_zero]
    trivial
  · obtain ⟨m, hm⟩ : ∃ m, path.length - (k - 1) = m + 1 :=
      ⟨path.length - (k - 1) - 1, by omega⟩
    rw [hm, List.chain'_range_succ]
    intro i hi
    exact pySlice_overlap hk (by omega)

/-- Wrapping a sentinel-respecting chain in optional `SOURCE`/`SINK`
brackets keeps it a chain. -/
theorem chain'_sentinel_wrap {idk : List (Int × Kmer)} {k : Nat}
    (ids pre suf : List Int)
    (hpre : pre = [] ∨ pre = [SOURCE]) (hsuf : suf = [] ∨ suf = [SINK])
    (h : List.Chain' (sentinelOr idk k) ids) :
    List.Chain' (sentinelOr idk k) (pre ++ ids ++ suf) := by
  rw [List.append_assoc]
  have h1 : List.Chain' (sentinelOr idk k) (ids ++ suf) := by
    refine List.chain'_append.mpr ⟨h, ?_, ?_⟩
    · rcases hsuf with rfl | rfl
      · trivial
      · exact List.chain'_singleton _
    · intro x _ y hy
      rcases hsuf with rfl | rfl
      · simp at hy
      · obtain rfl : SINK = y := by simpa using hy
        exact Or.inr (Or.inr (Or.inr (Or.inl rfl)))
  refine List.chain'_append.mpr ⟨?_, h1, ?_⟩
  · rcases hpre with rfl | rfl
    · trivial
    · exact List.chain'_singleton _
  · intro x hx y _
    rcases hpre with rfl | rfl
    · simp at hx
    · obtain rfl : SOURCE = x := by simpa using hx
      exact Or.inl rfl

theorem forall₂_singleton_right {P : Int → Kmer → Prop} {ids : List Int}
    {t : Kmer} (h : List.Forall₂ P ids [t]) : ∃ i, ids = [i] ∧ P i t := by
  cases h with
  | cons hP hf =>
      cases hf
      exact ⟨_, rfl, hP⟩

/-- Every kmer path appended by `processPath` (and every one already
present) is well-shaped with respect to the grown side table. -/
theorem processPath_good (sn en : Finset Int) (k : Nat) (st : BuildState)
    (pp : List Int × ℚ) (hInv : StInv st) (hk : 1 ≤ k) (hne : pp.1 ≠ [])
    (hgood : ∀ q ∈ st.kmer_paths, GoodKp st.id_kmer_map k q.1) :
    ∀ q ∈ (processPath sn en k st pp).kmer_paths,
      GoodKp (processPath sn en k st pp).id_kmer_map k q.1 := by
  simp only [processPath]
  split
  · exact hgood
  · intro q hq
    have hspec := addKmers_spec
      (if pp.1.length < k then [pp.1] else get_kmers pp.1 k) st hInv
    have hlx : lext st.id_kmer_map
        (addKmers st (if pp.1.length < k then [pp.1]
          else get_kmers pp.1 k)).1.id_kmer_map :=
      fun i u h => hspec.2.2.1 i u h
    have hlen : ∀ t ∈ (if pp.1.length < k then [pp.1] else get_kmers pp.1 k),
        1 ≤ t.length ∧ t.length ≤ k := by
      split
      · next hlt =>
          intro t ht
          obtain rfl := List.mem_singleton.mp ht
          exact ⟨List.length_pos.mpr hne, by omega⟩
      · intro t ht
        rw [get_kmers_length hk t ht]
        exact ⟨hk, le_refl k⟩
    rcases List.mem_append.mp hq with hq | hq
    · rw [hspec.2.2.2.2.1] at hq
      exact GoodKp_lext hlx (hgood q hq)
    · obtain rfl := List.mem_singleton.mp hq
      constructor
      · intro n hn
        rcases List.mem_append.mp hn with hn | hn
        · rcases List.mem_append.mp hn with hn | hn
          · split at hn
            · obtain rfl : n = SOURCE := by simpa using hn
              exact Or.inl rfl
            · simp at hn
          · obtain ⟨t, ht, hP⟩ := forall₂_mem_left hspec.2.1 n hn
            have hb := hlen t ht
            exact Or.inr (Or.inr ⟨t, hP.1, hb.1, hb.2⟩)
        · split at hn
          · obtain rfl : n = SINK := by simpa using hn
            exact Or.inr (Or.inl rfl)
          · simp at hn
      · apply chain'_sentinel_wrap
        · split
          · exact Or.inr rfl
          · exact Or.inl rfl
        · split
          · exact Or.inr rfl
          · exact Or.inl rfl
        · by_cases hshort : pp.1.length < k
          · rw [if_pos hshort] at hspec
            obtain ⟨i, hids, _⟩ := forall₂_singleton_right hspec.2.1
            rw [if_pos hshort, hids]
            exact List.chain'_singleton _
          · rw [if_neg hshort] at hspec
            rw [if_neg hshort]
            have hf2 := forall₂_and_right hspec.2.1 (get_kmers_length hk)
            refine chain'_forall₂ ?_ hf2
              (get_kmers_chain hk (Nat.le_of_not_lt hshort))
            intro i t i2 t2 hP hP2 hR
            exact Or.inr (Or.inr (Or.inr (Or.inr
              ⟨t, t2, hP.1.1, hP2.1.1, hP.2, hP2.2, hR⟩)))

/-- `processPath` keeps every recorded tuple's length in `[1, k]`. -/
theorem processPath_IdkLen (sn en : Finset Int) (k : Nat) (st : BuildState)
    (pp : List Int × ℚ) (hInv : StInv st) (hk : 1 ≤ k) (hne : pp.1 ≠ [])
    (hIdk : IdkLen st.id_kmer_map k) :
    IdkLen (processPath sn en k st pp).id_kmer_map k := by
  simp only [processPath]
  split
  · exact hIdk
  · intro e he
    have hspec := addKmers_spec
      (if pp.1.length < k then [pp.1] else get_kmers pp.1 k) st hInv
    rcases hspec.2.2.2.1 e he with h | h
    · exact hIdk e h
    · revert h
      split
      · next hlt =>
          intro h
          obtain heq := List.mem_singleton.mp h
          rw [heq]
          exact ⟨List.length_pos.mpr hne, by omega⟩
      · intro h
        rw [get_kmers_length hk _ h]
        exact ⟨hk, le_refl k⟩

/-- Phase-1 fold: invariant, path goodness and tuple-length bounds all hold
of the final build state. -/
theorem foldl_processPath_good (sn en : Finset Int) (k : Nat)
    (pps : List (List Int × ℚ)) (hk : 1 ≤ k) :
    ∀ st, (∀ pp ∈ pps, pp.1 ≠ []) → StInv st →
    (∀ q ∈ st.kmer_paths, GoodKp st.id_kmer_map k q.1) →
    IdkLen st.id_kmer_map k →
    StInv (pps.foldl (processPath sn en k) st) ∧
    (∀ q ∈ (pps.foldl (processPath sn en k) st).kmer_paths,
      GoodKp (pps.foldl (processPath sn en k) st).id_kmer_map k q.1) ∧
    IdkLen (pps.foldl (processPath sn en k) st).id_kmer_map k := by
  induction pps with
  | nil =>
      intro st _ h1 h2 h3
      exact ⟨h1, h2, h3⟩
  | cons pp rest ih =>
      intro st hne h1 h2 h3
      have hne0 : pp.1 ≠ [] := hne pp (List.mem_cons_self _ _)
      exact ih _ (fun p hp => hne p (List.mem_cons_of_mem _ hp))
        (processPath_StInv sn en k st pp h1)
        (processPath_good sn en k st pp h1 hk hne0 h2)
        (processPath_IdkLen sn en k st pp h1 hk hne0 h3)

theorem hash_kmers_mem {idk : List (Int × Kmer)} {k ksmall : Nat} {q : Kmer}
    {i : Int} (h : i ∈ hash_kmers idk k ksmall q) : ∃ t, (i, t) ∈ idk := by
  unfold hash_kmers at h
  obtain ⟨e, he, rfl⟩ := List.mem_map.mp h
  exact ⟨e.2, (List.mem_filter.mp he).1⟩

theorem find_short_path_singleton {kmer_hash : Kmer → List Int} {K : KGraph}
    {path : Kmer} {score : ℚ} {out : List (List Int × ℚ)}
    (h : find_short_path_kmers kmer_hash K path score = some out) :
    ∀ q ∈ out, ∃ i, q.1 = [i] ∧ i ∈ kmer_hash path := by
  unfold find_short_path_kmers at h
  dsimp only [] at h
  split at h
  · obtain rfl := Option.some.inj h
    intro q hq
    simp at hq
  · split at h
    · exact absurd h (by simp)
    · obtain rfl := Option.some.inj h
      intro q hq
      obtain ⟨m, hm, rfl⟩ := List.mem_map.mp hq
      obtain ⟨i, hi, rfl⟩ := List.mem_map.mp hm
      exact ⟨i, rfl, hi⟩

theorem resolveGroup_ids {kmer_hash : Kmer → List Int} {K : KGraph}
    {idk : List (Int × Kmer)}
    (hp : ∀ path i, i ∈ kmer_hash path → ∃ t, (i, t) ∈ idk) :
    ∀ (group : List (List Int × ℚ))
      (out : List (List Int × ℚ) × List (List Int × ℚ)),
    resolveGroup kmer_hash K group = some out →
    ∀ q ∈ out.1, ∃ i t, q.1 = [i] ∧ (i, t) ∈ idk := by
  intro group
  induction group with
  | nil =>
      intro out h q hq
      obtain rfl := Option.some.inj h
      simp at hq
  | cons p rest ih =>
      intro out h q hq
      obtain ⟨path, score⟩ := p
      simp only [resolveGroup, Option.bind_eq_bind, Option.bind] at h
      cases hm : find_short_path_kmers kmer_hash K path score with
      | none => rw [hm] at h; simp at h
      | some matching =>
          rw [hm] at h
          cases hr : resolveGroup kmer_hash K rest with
          | none => rw [hr] at h; simp at h
          | some pr =>
              rw [hr] at h
              obtain rfl := Option.some.inj h
              rcases List.mem_append.mp hq with hq | hq
              · obtain ⟨i, hqi, hih⟩ := find_short_path_singleton hm q hq
                obtain ⟨t, ht⟩ := hp path i hih
                exact ⟨i, t, hqi, ht⟩
              · exact ih pr hr q hq

theorem resolveShorts_ids {k : Nat} {idk : List (Int × Kmer)} {K : KGraph} :
    ∀ (groups : List (Nat × List (List Int × ℚ)))
      (out : List (List Int × ℚ) × List (List Int × ℚ)),
    resolveShorts k idk K groups = some out →
    ∀ q ∈ out.1, ∃ i t, q.1 = [i] ∧ (i, t) ∈ idk := by
  intro groups
  induction groups with
  | nil =>
      intro out h q hq
      obtain rfl := Option.some.inj h
      simp at hq
  | cons g gs ih =>
      intro out h q hq
      obtain ⟨ksmall, group⟩ := g
      simp only [resolveShorts, Option.bind_eq_bind, Option.bind] at h
      cases hm : resolveGroup (hash_kmers idk k ksmall) K group with
      | none => rw [hm] at h; simp at h
      | some pr =>
          rw [hm] at h
          cases hr : resolveShorts k idk K gs with
          | none => rw [hr] at h; simp at h
          | some qr =>
              rw [hr] at h
              obtain rfl := Option.some.inj h
              rcases List.mem_append.mp hq with hq | hq
              · exact resolveGroup_ids
                  (fun path i hi => hash_kmers_mem hi) group pr hm q hq
              · exact ih qr hr q hq

theorem clip_subsets (K : KGraph) :
    (clip_dangling_ends K).1.nodes ⊆ K.nodes ∧
    (clip_dangling_ends K).1.edges ⊆ K.edges :=
  clipLoop_subsets _ K K.nodes ∅ 0

/-- A successfully built kmer graph is well-formed and well-shaped: every
vertex is a sentinel or carries a tuple of length `1..k`, and every edge
either touches a sentinel or joins two overlapping full `k`-windows. -/
theorem create_good (G : SpliceGraph) (pps : List (List Int × ℚ)) (k : Nat)
    (r : CreateResult) (hk : 1 ≤ k)
    (h : create_kmer_graph G pps k = some r) :
    GoodK r.K.id_kmer_map k r.K ∧ KWF r.K := by
  have hidk := create_id_map G pps k r h
  unfold create_kmer_graph at h
  split at h
  · exact absurd h (by simp)
  · next hguard =>
      have hne : ∀ pp ∈ pps, pp.1 ≠ [] := by
        intro pp hpp hcon
        apply hguard
        rw [List.any_eq_true]
        exact ⟨pp, hpp, by rw [hcon]; rfl⟩
      dsimp only [] at h
      split at h
      · exact absurd h (by simp)
      · next newPaths lost hres =>
          obtain rfl := (Option.some.inj h).symm
          have hfold := foldl_processPath_good (get_start_end_nodes G).1
            (get_start_end_nodes G).2 k pps hk initBuildState hne StInv_init
            (fun q hq => absurd hq (by simp [initBuildState]))
            (fun e he => absurd he (by simp [initBuildState]))
          have hK0good : GoodK (pps.foldl (processPath (get_start_end_nodes G).1
              (get_start_end_nodes G).2 k) initBuildState).id_kmer_map k
              { nodes := ∅, edges := ∅, attrs := fun _ => init_node_attrs,
                id_kmer_map := (pps.foldl (processPath (get_start_end_nodes G).1
                  (get_start_end_nodes G).2 k) initBuildState).id_kmer_map,
                source := SOURCE, sink := SINK } :=
            ⟨fun n hn => absurd hn (Finset.not_mem_empty n),
             fun e he => absurd he (Finset.not_mem_empty e)⟩
          have hK1good := GoodK_foldl _ k _ hfold.2.1 _ hK0good
          have hnewGood : ∀ q ∈ newPaths,
              GoodKp (pps.foldl (processPath (get_start_end_nodes G).1
                (get_start_end_nodes G).2 k) initBuildState).id_kmer_map k q.1 := by
            intro q hq
            obtain ⟨i0, t0, hqi, hit⟩ :=
              resolveShorts_ids _ (newPaths, lost) hres q hq
            rw [hqi]
            refine ⟨?_, List.chain'_singleton _⟩
            intro n hn
            have heq : n = i0 := by simpa using hn
            rw [heq]
            obtain ⟨hl1, hl2⟩ := hfold.2.2 (i0, t0) hit
            exact Or.inr (Or.inr ⟨t0,
              alookup_of_mem hfold.1.ids_nodup hit, hl1, hl2⟩)
          have hK2good := GoodK_foldl _ k newPaths hnewGood _ hK1good
          constructor
          · rw [hidk]
            exact ⟨fun n hn => hK2good.1 n ((clip_subsets _).1 hn),
              fun e he => hK2good.2 e ((clip_subsets _).2 he)⟩
          · refine (clipLoop_sound _ _ _ ∅ 0 ?_ (Finset.Subset.refl _)
              (fun n hn _ => hn) (Nat.lt_succ_self _)).2.1
            exact foldl_add_path_KWF newPaths _ (foldl_add_path_KWF _ _
              (fun e he => absurd he (Finset.not_mem_empty e)))

theorem mem_zip_snd {α : Type} :
    ∀ (a : α) (l : List α) (n : α), n ∈ l →
    ∃ p ∈ List.zip (a :: l) l, p.2 = n := by
  intro a l
  induction l generalizing a with
  | nil => intro n hn; simp at hn
  | cons b rest ih =>
      intro n hn
      rcases List.mem_cons.mp hn with h | h
      · exact ⟨(a, b), List.mem_cons_self _ _, h.symm⟩
      · obtain ⟨p, hp, hpn⟩ := ih b n h
        exact ⟨p, List.mem_cons_of_mem _ hp, hpn⟩

theorem chain_goodStep_len {idk : List (Int × Kmer)} {k : Nat} :
    ∀ (l : List Int), 2 ≤ l.length → List.Chain' (goodStep idk k) l →
    ∀ n ∈ l, ∃ t, alookup idk n = some t ∧ t.length = k := by
  intro l
  induction l with
  | nil => intro h; simp at h
  | cons a l ih =>
      intro hlen hch n hn
      cases l with
      | nil => simp at hlen
      | cons b rest =>
          obtain ⟨tu, tv, h1, h2, h3, h4, _⟩ := (List.chain'_cons.mp hch).1
          rcases List.mem_cons.mp hn with h | h
          · exact ⟨tu, h ▸ h1, h3⟩
          · cases rest with
            | nil =>
                obtain rfl : n = b := by simpa using h
                exact ⟨tv, h2, h4⟩
            | cons c rest2 =>
                exact ih (by simp) (List.chain'_cons.mp hch).2 n h

/-- Claim C9: in a successfully built kmer graph, (a) every edge not
touching a sentinel joins two full `k`-windows overlapping in all but one
position; and (b) for every path from `SOURCE` to `SINK` through real
kmers, the assembler's reconstruction — the full tuple of the first real
kmer followed by the last tuple element of each subsequent kmer, sentinels
dropped — contains each path kmer's tuple as its window at that position,
i.e. it is the underlying SpliceNode sequence. -/
theorem C9_reconstruction (G : SpliceGraph) (pps : List (List Int × ℚ))
    (k : Nat) (r : CreateResult) (hk : 1 ≤ k)
    (h : create_kmer_graph G pps k = some r) :
    (∀ e ∈ r.K.edges, e.1 ≠ SOURCE → e.1 ≠ SINK → e.2 ≠ SOURCE →
      e.2 ≠ SINK → goodStep r.K.id_kmer_map k e.1 e.2) ∧
    (∀ (mid : List Int), mid ≠ [] →
      List.Chain' (fun u v => (u, v) ∈ r.K.edges) (SOURCE :: mid ++ [SINK]) →
      (∀ n ∈ mid, n ≠ SOURCE ∧ n ≠ SINK) →
      ∀ (j : Nat) (hj : j < mid.length),
        alookup r.K.id_kmer_map (mid.get ⟨j, hj⟩)
          = some (((reconstruct_kmer_path r.K.id_kmer_map
              (SOURCE :: mid ++ [SINK])).drop j).take k)) := by
  obtain ⟨hgood, hwf⟩ := create_good G pps k r hk h
  have ha : ∀ e ∈ r.K.edges, e.1 ≠ SOURCE → e.1 ≠ SINK → e.2 ≠ SOURCE →
      e.2 ≠ SINK → goodStep r.K.id_kmer_map k e.1 e.2 := by
    intro e he h1 h2 h3 h4
    rcases hgood.2 e he with hc | hc | hc | hc | hc
    · exact absurd hc h1
    · exact absurd hc h2
    · exact absurd hc h3
    · exact absurd hc h4
    · exact hc
  refine ⟨ha, ?_⟩
  intro mid hne hchain hsent j hj
  have hnode : ∀ n ∈ mid, n ∈ r.K.nodes := by
    intro n hn
    have hn' : n ∈ mid ++ [SINK] := List.mem_append.mpr (Or.inl hn)
    obtain ⟨p, hp, hpn⟩ := mem_zip_snd SOURCE (mid ++ [SINK]) n hn'
    have hedge : (p.1, p.2) ∈ r.K.edges := chain'_pair_mem hchain p hp
    rw [hpn] at hedge
    exact (hwf (p.1, n) hedge).2
  have hcm : List.Chain' (fun u v => (u, v) ∈ r.K.edges) mid :=
    (List.chain'_append.mp (List.chain'_cons'.mp hchain).2).1
  have hmidchain : List.Chain' (goodStep r.K.id_kmer_map k) mid := by
    apply chain'_of_zip
    intro e hee
    obtain ⟨he1, he2⟩ := zip_tail_mem mid e hee
    exact ha (e.1, e.2) (chain'_pair_mem hcm e hee)
      (hsent e.1 he1).1 (hsent e.1 he1).2 (hsent e.2 he2).1 (hsent e.2 he2).2
  cases mid with
  | nil => exact absurd rfl hne
  | cons m0 mrest =>
      cases mrest with
      | nil =>
          obtain rfl : j = 0 := by
            simp only [List.length_cons, List.length_nil] at hj
            omega
          have hg := hgood.1 m0 (hnode m0 (List.mem_cons_self _ _))
          rcases hg with hg | hg | hg
          · exact absurd hg (hsent m0 (List.mem_cons_self _ _)).1
          · exact absurd hg (hsent m0 (List.mem_cons_self _ _)).2
          · obtain ⟨t, hl, hb1, hb2⟩ := hg
            show alookup r.K.id_kmer_map m0 = _
            have hrec : reconstruct_kmer_path r.K.id_kmer_map
                (SOURCE :: [m0] ++ [SINK])
                = (alookup r.K.id_kmer_map m0).getD [] ++ [] := rfl
            rw [hl, hrec, hl]
            simp only [Option.getD_some, List.append_nil, List.drop_zero]
            rw [List.take_of_length_le hb2]
      | cons m1 rest2 =>
          have hlk : ∀ n ∈ (m0 :: m1 :: rest2), ∃ t,
              alookup r.K.id_kmer_map n = some t ∧ t.length = k :=
            chain_goodStep_len _ (by simp) hmidchain
          have htup : ∀ n ∈ (m0 :: m1 :: rest2),
              (tupOf r.K.id_kmer_map n).length = k := by
            intro n hn
            obtain ⟨t, h1, h2⟩ := hlk n hn
            unfold tupOf
            rw [h1]
            exact h2
          have hchain_tup : List.Chain'
              (fun a b : Kmer => a.drop 1 = b.dropLast)
              ((m0 :: m1 :: rest2).map (tupOf r.K.id_kmer_map)) := by
            rw [List.chain'_map]
            refine hmidchain.imp ?_
            intro n n' hst
            obtain ⟨tu, tv, h1, h2, _, _, h5⟩ := hst
            unfold tupOf
            rw [h1, h2]
            exact h5
          have hwin := recon_windows k hk
            ((m1 :: rest2).map (tupOf r.K.id_kmer_map))
            (tupOf r.K.id_kmer_map m0)
            (htup m0 (List.mem_cons_self _ _))
            (by
              intro t ht
              obtain ⟨n, hn, rfl⟩ := List.mem_map.mp ht
              exact htup n (List.mem_cons_of_mem _ hn))
            hchain_tup j
            (by
              simp only [List.length_map, List.length_cons] at hj ⊢
              omega)
          have hmapget : ((m0 :: m1 :: rest2).map (tupOf r.K.id_kmer_map)).get? j
              = some (tupOf r.K.id_kmer_map ((m0 :: m1 :: rest2).get ⟨j, hj⟩)) := by
            rw [List.get?_map, List.get?_eq_get hj]
            rfl
          have hwin' : some (tupOf r.K.id_kmer_map ((m0 :: m1 :: rest2).get ⟨j, hj⟩))
              = some ((((tupOf r.K.id_kmer_map m0)
                  ++ ((m1 :: rest2).map (tupOf r.K.id_kmer_map)).map
                    (fun t => t.getLastD 0)).drop j).take k) := by
            rw [← hmapget]
            exact hwin
          obtain ⟨t, hl1, hl2⟩ := hlk ((m0 :: m1 :: rest2).get ⟨j, hj⟩)
            (List.get_mem _ _ _)
          have htt : tupOf r.K.id_kmer_map ((m0 :: m1 :: rest2).get ⟨j, hj⟩) = t := by
            unfold tupOf
            rw [hl1]
            rfl
          rw [hl1]
          rw [htt] at hwin'
          have hrecon : reconstruct_kmer_path r.K.id_kmer_map
              (SOURCE :: (m0 :: m1 :: rest2) ++ [SINK])
              = (tupOf r.K.id_kmer_map m0)
                  ++ ((m1 :: rest2).map (tupOf r.K.id_kmer_map)).map
                    (fun t => t.getLastD 0) := by
            unfold reconstruct_kmer_path
            rw [List.map_map]
            show _ ++ (((m1 :: rest2) ++ [SINK]).dropLast).map _ = _
            rw [List.dropLast_concat]
            rfl
          rw [hrecon]
          exact hwin'

/-- Witness for C9: in the fork scenario the path `SOURCE → 0 → 1 → SINK`
reconstructs to `[1, 2, 3]`, and the kmers `[1,2]` and `[2,3]` are its
windows at offsets 0 and 1. -/
theorem C9_reconstruction_witness :
    reconstruct_kmer_path idkFork [SOURCE, 0, 1, SINK] = [1, 2, 3] ∧
    alookup idkFork 0
      = some (((reconstruct_kmer_path idkFork
          [SOURCE, 0, 1, SINK]).drop 0).take 2) ∧
    alookup idkFork 1
      = some (((reconstruct_kmer_path idkFork
          [SOURCE, 0, 1, SINK]).drop 1).take 2) := by
  have hs : (create_kmer_graph Gfork ppFork 2).isSome := by
    with_unfolding_all decide
  have h := C9_reconstruction Gfork ppFork 2
    ((create_kmer_graph Gfork ppFork 2).get hs) (by omega)
    (Option.some_get hs).symm
  have hidk : ((create_kmer_graph Gfork ppFork 2).get hs).K.id_kmer_map
      = idkFork := by
    with_unfolding_all rfl
  have hedges : ((create_kmer_graph Gfork ppFork 2).get hs).K.edges
      = edgesFork := by
    with_unfolding_all rfl
  have hchain : List.Chain' (fun u v =>
      (u, v) ∈ ((create_kmer_graph Gfork ppFork 2).get hs).K.edges)
      (SOURCE :: [0, 1] ++ [SINK]) := by
    rw [hedges]
    exact List.Chain.cons (by with_unfolding_all decide)
      (List.Chain.cons (by with_unfolding_all decide)
        (List.Chain.cons (by with_unfolding_all decide) List.Chain.nil))
  have h0 := h.2 [0, 1] (by decide) hchain (by decide) 0 (by decide)
  have h1 := h.2 [0, 1] (by decide) hchain (by decide) 1 (by decide)
  rw [hidk] at h0 h1
  exact ⟨by with_unfolding_all decide, h0, h1⟩

/-- Witness for C2 at a concrete graph with a two-node dangling chain. -/
theorem C2_clip_fixpoint_witness :
    KWF Kclip ∧
    (1 ≤ inDeg (clip_dangling_ends Kclip).1 5
      ∧ 1 ≤ outDeg (clip_dangling_ends Kclip).1 5) ∧
    (clip_dangling_ends (clip_dangling_ends Kclip).1).2.2 = 0 := by
  have h := C2_clip_fixpoint Kclip (by with_unfolding_all decide)
  exact ⟨by with_unfolding_all decide,
    h.1 5 (by with_unfolding_all decide) (by with_unfolding_all decide)
      (by with_unfolding_all decide),
    h.2.2.1⟩

end Assembler
